import Mathlib

/-!
Verification model of the MIDI-FallingBar repository, a shallow embedding of
the playback-synchronization and instanced-rendering engine:

* NoteVisualizer (src/src/NoteVisualizer.ts) — building and per-frame
  updating of the GPU note instances, culling, resetVisuals.
* Piano (src/src/Piano.ts) — keyboard key colors, pressKey and releaseKey.
* Synth (src/src/Synth.ts) — the oscillator voice map.
* MidiVisualizer (the converged variant in src/unnamed/part_006) — the
  transport and playback synchronizer: updatePlayback, handleSeek,
  skipTime, resetPlayback.
* The NoteVisualizer variant of src/unnamed/part_000 — its visualize method
  (for the empty-score behaviour).

Times, colors and coordinates are modelled as rational numbers.  JavaScript
Map objects are modelled as association lists in insertion order, with
Map.set keeping the position of an existing key, matching the iteration
order guarantees of the language.
-/

namespace MidiBar

/-- A JavaScript Map as an association list in insertion order.
Map.set overwrites in place when the key is present, appends otherwise. -/
def mapSet {κ ν : Type} [DecidableEq κ] : List (κ × ν) → κ → ν → List (κ × ν)
  | [], k, v => [(k, v)]
  | (k₀, v₀) :: rest, k, v =>
    if k₀ = k then (k₀, v) :: rest else (k₀, v₀) :: mapSet rest k v

/-- Map.delete removes the entry with the given key, if any. -/
def mapDelete {κ ν : Type} [DecidableEq κ] : List (κ × ν) → κ → List (κ × ν)
  | [], _ => []
  | (k₀, v₀) :: rest, k =>
    if k₀ = k then rest else (k₀, v₀) :: mapDelete rest k

/-- Map.get. -/
def mapGet {κ ν : Type} [DecidableEq κ] : List (κ × ν) → κ → Option ν
  | [], _ => none
  | (k₀, v₀) :: rest, k => if k₀ = k then some v₀ else mapGet rest k

/-- The keys of a map, in insertion order. -/
def mapKeys {κ ν : Type} (m : List (κ × ν)) : List κ := m.map Prod.fst

/-- An RGB color; three.js Color components are floats, modelled as rationals. -/
abbrev Color := ℚ × ℚ × ℚ

/-- new Color(hex): split a 0xRRGGBB literal into components in [0,1]. -/
def colorOfHex (n : Nat) : Color :=
  (((n / 65536 % 256 : Nat) : ℚ) / 255,
   ((n / 256 % 256 : Nat) : ℚ) / 255,
   ((n % 256 : Nat) : ℚ) / 255)

/-- three.js Color.addScalar: adds to each component, without clamping. -/
def colorAddScalar (c : Color) (s : ℚ) : Color := (c.1 + s, c.2.1 + s, c.2.2 + s)

/-- three.js Color.multiplyScalar. -/
def colorMulScalar (c : Color) (s : ℚ) : Color := (c.1 * s, c.2.1 * s, c.2.2 * s)

/-- CHANNEL_COLORS from NoteVisualizer.ts. -/
def CHANNEL_COLORS : List Nat :=
  [0xff0000, 0x00ff00, 0x0000ff, 0xffff00, 0xff00ff, 0x00ffff, 0xffffff,
   0xff8800, 0x00ff88, 0x8800ff, 0x88ff00, 0x0088ff, 0xff0088, 0x888888,
   0xcc0000, 0x00cc00]

/-- The per-channel base color, CHANNEL_COLORS[channel mod 16]. -/
def channelBaseColor (channel : Nat) : Color :=
  colorOfHex (CHANNEL_COLORS.getD (channel % CHANNEL_COLORS.length) 0)

/-- A note event of the decoded score (tonejs Note): midi pitch, start time
in seconds, duration in seconds, velocity. -/
structure Note where
  midi : Nat
  time : ℚ
  duration : ℚ
  velocity : ℚ
  deriving Repr, DecidableEq

/-- A track of the decoded score: a MIDI channel and its notes. -/
structure Track where
  channel : Nat
  notes : List Note
  deriving Repr, DecidableEq

/-- A playable note paired with its channel (interface PlayableNote). -/
structure PlayableNote where
  note : Note
  channel : Nat
  deriving Repr, DecidableEq

/-- The string key used for note maps, a template literal of midi, start
time and channel; modelled as the corresponding triple. -/
abbrev NoteKey := Nat × ℚ × Nat

/-- The map key of a playable note. -/
def pnKey (p : PlayableNote) : NoteKey := (p.note.midi, p.note.time, p.channel)

/-! ## Piano geometry (src/src/Piano.ts)

The note visualizer consumes only the x coordinate of a key mesh and
whether the key is black; we model exactly those.  The 88 keys cover midi
notes 21 to 108. -/

/-- Piano.isBlackKey. -/
def isBlackKey (m : Nat) : Bool := [1, 3, 6, 8, 10].contains (m % 12)

/-- WHITE_KEY_WIDTH = 1.0, KEY_SPACING = 0.05: the pitch of the white-key
grid is 1.05 = 21/20. -/
def whitePitch : ℚ := 21 / 20

/-- How many white keys precede key index i (0-based from midi 21). -/
def whiteCountBefore (i : Nat) : Nat :=
  ((List.range i).filter (fun j => ¬ isBlackKey (j + 21))).length

/-- The x offset centering the keyboard: -(52 whites · 1.05 - 0.05)/2. -/
def pianoXOffset : ℚ := -(52 * whitePitch - 1 / 20) / 2

/-- The x coordinate of the key mesh for a midi note, none when the pitch
has no key on the 88-key keyboard (Piano.getKey returns undefined).
White key i sits at whiteIndex·1.05 + offset; a black key sits half a
white-key width right of the previous white key. -/
def keyX (m : Nat) : Option ℚ :=
  if 21 ≤ m ∧ m ≤ 108 then
    let i := m - 21
    if isBlackKey m then
      some ((((whiteCountBefore i : ℚ)) - 1) * whitePitch + 1 / 2 + pianoXOffset)
    else
      some ((whiteCountBefore i : ℚ) * whitePitch + pianoXOffset)
  else none

/-- BLACK_KEY_WIDTH = 0.6, WHITE_KEY_WIDTH = 1.0. -/
def keyWidth (m : Nat) : ℚ := if isBlackKey m then 3 / 5 else 1

/-! ## NoteVisualizer (src/src/NoteVisualizer.ts), normal-quality path -/

def NOTE_BAR_HEIGHT : ℚ := 1 / 5
def ACTIVE_BRIGHTNESS : ℚ := 1 / 2
def PLAYED_DARKEN_FACTOR : ℚ := 2 / 5
def WHITE_KEY_HEIGHT : ℚ := 2 / 5

/-- Modelled from the spec: TIME_SCALE is imported from src/constants.ts,
which is not among the provided sources; per spec 4.3 an instance's depth
is startTime · TIME_SCALE and its length duration · TIME_SCALE.  The
concrete value is immaterial to every claim below. -/
def TIME_SCALE : ℚ := 5

/-- An instance matrix, decomposed as position and scale (the rotation is
always the identity quaternion in the source). -/
structure Transform where
  pos : ℚ × ℚ × ℚ
  scale : ℚ × ℚ × ℚ
  deriving Repr, DecidableEq

/-- The visual state of a note instance. -/
inductive NState where
  | normal
  | active
  | finished
  deriving Repr, DecidableEq

/-- One GPU instance per playable note, together with the color and matrix
currently written at its slot of the instanced mesh. -/
structure NoteInstance where
  note : Note
  channel : Nat
  instanceId : Nat
  originalColor : Color
  visible : Bool
  state : NState
  color : Color
  transform : Transform
  deriving Repr, DecidableEq

/-- The noteMap key of an instance. -/
def instKey (inst : NoteInstance) : NoteKey :=
  (inst.note.midi, inst.note.time, inst.channel)

/-- The static transform computed in visualize and showInstance: position
(keyX, barY + channel·0.001, -time·TS - duration·TS/2) and scale
(keyWidth·0.9, 1, duration·TS), with barY = WHITE_KEY_HEIGHT/2 -
NOTE_BAR_HEIGHT/2 - 0.01. -/
def noteTransform (x : ℚ) (channel : Nat) (note : Note) : Transform :=
  { pos := (x,
            WHITE_KEY_HEIGHT / 2 - NOTE_BAR_HEIGHT / 2 - 1 / 100 + (channel : ℚ) / 1000,
            -(note.time * TIME_SCALE) - note.duration * TIME_SCALE / 2)
    scale := (keyWidth note.midi * (9 / 10), 1, note.duration * TIME_SCALE) }

/-- Grouping step of visualize: push a note onto its channel's list,
creating the entry at the end of the map on first use. -/
def addToGroup : List (Nat × List Note) → Nat → Note → List (Nat × List Note)
  | [], c, n => [(c, [n])]
  | (c₀, ns) :: rest, c, n =>
    if c₀ = c then (c₀, ns ++ [n]) :: rest else (c₀, ns) :: addToGroup rest c n

/-- notesByChannel of visualize: tracks on channel 9 are skipped whole,
the remaining notes are grouped by track channel. -/
def notesByChannel (tracks : List Track) : List (Nat × List Note) :=
  tracks.foldl
    (fun m track =>
      if track.channel = 9 then m
      else track.notes.foldl (fun m₂ note => addToGroup m₂ track.channel note) m)
    []

/-- The note instances recorded for one channel batch, indexed from i; a
note whose pitch has no key on the keyboard is silently skipped while its
slot index is still consumed. -/
def channelInstancesFrom (channel : Nat) (base : Color) : Nat → List Note → List NoteInstance
  | _, [] => []
  | i, n :: rest =>
    match keyX n.midi with
    | none => channelInstancesFrom channel base (i + 1) rest
    | some x =>
      { note := n, channel := channel, instanceId := i, originalColor := base,
        visible := true, state := .normal, color := base,
        transform := noteTransform x channel n } :: channelInstancesFrom channel base (i + 1) rest

/-- The outcome of NoteVisualizer.visualize: the instanced-mesh batches
(channel and allocated instance count, in creation order) and the noteMap. -/
structure BuildResult where
  batches : List (Nat × Nat)
  noteMap : List (NoteKey × NoteInstance)
  deriving Repr, DecidableEq

/-- NoteVisualizer.visualize: one InstancedMesh per channel sized at the
channel's full note count, and the noteMap of created instances. -/
def visualize (tracks : List Track) : BuildResult :=
  let groups := notesByChannel tracks
  { batches := groups.map (fun g => (g.1, g.2.length)),
    noteMap := groups.foldl
      (fun m g =>
        (channelInstancesFrom g.1 (channelBaseColor g.1) 0 g.2).foldl
          (fun m₂ inst => mapSet m₂ (instKey inst) inst) m)
      [] }

/-- Stable insertion modelling the stable Array.sort comparator
(a, b) => a.note.time - b.note.time: an element is placed before the first
entry whose time is not smaller, so equal times keep their order. -/
def insertByTime (a : NoteInstance) : List NoteInstance → List NoteInstance
  | [] => [a]
  | b :: l => if b.note.time < a.note.time then b :: insertByTime a l else a :: b :: l

/-- Stable sort by start time (folding from the right keeps stability). -/
def sortByTime (l : List NoteInstance) : List NoteInstance :=
  l.foldr insertByTime []

/-- The mutable rendering state of the NoteVisualizer: the chronologically
sorted list of instances with their current slot contents. -/
structure VisState where
  notesByTime : List NoteInstance
  deriving Repr, DecidableEq

/-- Building the visualizer state for a score. -/
def buildVis (tracks : List Track) : VisState :=
  { notesByTime := sortByTime ((visualize tracks).noteMap.map Prod.snd) }

/-- hideInstance: decompose the current matrix, zero the scale, recompose;
the caller marks the instance not visible. -/
def hideInst (inst : NoteInstance) : NoteInstance :=
  { inst with visible := false,
              transform := { inst.transform with scale := (0, 0, 0) } }

/-- showInstance: the full static transform is recomputed from the note;
when the pitch has no key the matrix write is skipped.  The caller marks
the instance visible. -/
def showInst (inst : NoteInstance) : NoteInstance :=
  { inst with visible := true,
              transform :=
                match keyX inst.note.midi with
                | some x => noteTransform x inst.channel inst.note
                | none => inst.transform }

def LOOKBEHIND : ℚ := 5
def LOOKAHEAD : ℚ := 15

/-- The first index whose interval end reaches the visible window start
(findIndex with the -1 result mapped to the list length). -/
def cullStartIdx (e : ℚ) (l : List NoteInstance) : Nat :=
  l.findIdx (fun n => decide (e - LOOKBEHIND ≤ n.note.time + n.note.duration))

/-- The first index whose start lies beyond the visible window end. -/
def cullEndIdx (e : ℚ) (l : List NoteInstance) : Nat :=
  l.findIdx (fun n => decide (e + LOOKAHEAD < n.note.time))

/-- Map with the index available, starting at a given index. -/
def mapIdxFrom {α β : Type} (f : Nat → α → β) : Nat → List α → List β
  | _, [] => []
  | i, a :: l => f i a :: mapIdxFrom f (i + 1) l

/-- The recomputed state of NoteVisualizer.update: active when the key is
in the active-note set, else finished when the interval end has strictly
passed, else normal. -/
def newStateFor (e : ℚ) (activeKeys : List NoteKey) (inst : NoteInstance) : NState :=
  if instKey inst ∈ activeKeys then .active
  else if inst.note.time + inst.note.duration < e then .finished
  else .normal

/-- The in-window work of NoteVisualizer.update: a hidden instance is
restored, the state is recomputed, and a color is written only when the
state changed. -/
def updateVisibleInstance (e : ℚ) (activeKeys : List NoteKey)
    (inst : NoteInstance) : NoteInstance :=
  let inst₁ := if inst.visible then inst else showInst inst
  if inst₁.state ≠ newStateFor e activeKeys inst then
    { inst₁ with
      state := newStateFor e activeKeys inst,
      color :=
        match newStateFor e activeKeys inst with
        | .active => colorAddScalar inst₁.originalColor ACTIVE_BRIGHTNESS
        | .finished => colorMulScalar inst₁.originalColor PLAYED_DARKEN_FACTOR
        | .normal => inst₁.originalColor }
  else inst₁

/-- The per-instance work of NoteVisualizer.update at index i: left and
right of the cull range a visible instance is hidden with a degenerate
matrix; inside it the instance is restored and restyled. -/
def updateInstance (e : ℚ) (activeKeys : List NoteKey)
    (startIdx endIdx : Nat) (i : Nat) (inst : NoteInstance) : NoteInstance :=
  if i < startIdx then (if inst.visible then hideInst inst else inst)
  else if i < endIdx then updateVisibleInstance e activeKeys inst
  else (if inst.visible then hideInst inst else inst)

/-- NoteVisualizer.update on the normal-quality path. -/
def visUpdate (e : ℚ) (act : List (NoteKey × Note)) (vis : VisState) : VisState :=
  if vis.notesByTime.length = 0 then vis
  else
    { notesByTime :=
        mapIdxFrom
          (updateInstance e (mapKeys act)
            (cullStartIdx e vis.notesByTime) (cullEndIdx e vis.notesByTime))
          0 vis.notesByTime }

/-- NoteVisualizer.resetVisuals: every instance back to the normal state
with its original color; the visible flag and the matrix are not touched. -/
def resetVisuals (vis : VisState) : VisState :=
  { notesByTime := vis.notesByTime.map (fun inst =>
      { inst with state := .normal, color := inst.originalColor }) }

/-! ## Synth (src/src/Synth.ts), oscillator path

The sampler voices live in the excluded audio-sample collaborator; every
channel instrument modelled here resolves to the oscillator path, which is
the one the activeOscillators map governs. -/

/-- The audible state of the synthesizer: the map from midi pitch to its
active oscillator (oscillators are distinguished by a creation counter),
together with the counter supplying fresh oscillator identities. -/
structure SynthState where
  activeOscillators : List (Nat × Nat)
  nextOscId : Nat
  deriving Repr, DecidableEq

/-- Synth.playOscillatorNote: an early return leaves everything untouched
when the pitch already has an active oscillator; otherwise a fresh
oscillator is started and recorded under the pitch. -/
def playOscillatorNote (midi : Nat) (s : SynthState) : SynthState :=
  if midi ∈ mapKeys s.activeOscillators then s
  else { activeOscillators := s.activeOscillators ++ [(midi, s.nextOscId)],
         nextOscId := s.nextOscId + 1 }

/-- Synth.playNote on the oscillator path (the channel gain and envelope
scheduling have no effect on the oscillator map). -/
def synthPlayNote (note : Note) (s : SynthState) : SynthState :=
  playOscillatorNote note.midi s

/-- Synth.stopNote: release and delete the pitch's oscillator, if any. -/
def synthStopNote (midi : Nat) (s : SynthState) : SynthState :=
  { s with activeOscillators := mapDelete s.activeOscillators midi }

/-- Synth.stopAllNotes: stopNote for every active oscillator key. -/
def synthStopAllNotes (s : SynthState) : SynthState :=
  (mapKeys s.activeOscillators).foldl (fun st midi => synthStopNote midi st) s

/-! ## Keyboard state of the converged player

Modelled from the spec: the Piano variant called by the converged
MidiVisualizer (pressKey with a color argument and releaseAllKeys,
spec 4.2) is not among the provided sources.  Per the spec, pressKey marks
the key visually active with the given color, overwriting on re-press;
releaseKey restores the idle color (a no-op when not pressed);
releaseAllKeys restores every pressed key.  The state is the map from
pitch to the pressed color. -/
structure Keyboard where
  pressed : List (Nat × Color)
  deriving Repr, DecidableEq

/-- Modelled from the spec: pressKey(pitch, color), keyed by pitch only. -/
def kbPress (midi : Nat) (c : Color) (kb : Keyboard) : Keyboard :=
  { pressed := mapSet kb.pressed midi c }

/-- Modelled from the spec: releaseKey(pitch). -/
def kbRelease (midi : Nat) (kb : Keyboard) : Keyboard :=
  { pressed := mapDelete kb.pressed midi }

/-- Modelled from the spec: releaseAllKeys(). -/
def kbReleaseAll (_ : Keyboard) : Keyboard := { pressed := [] }

/-! ## Transport and playback synchronizer
(the converged MidiVisualizer of src/unnamed/part_006) -/

/-- The mutable playback state of the MidiVisualizer with a loaded score:
the transport fields, the note cursor, the active-note map keyed by the
midi-time-channel string, and the audio, keyboard and instance components. -/
structure PlayerState where
  isPlaying : Bool
  duration : ℚ
  notesToPlay : List PlayableNote
  elapsedTime : ℚ
  audioContextStartTime : ℚ
  nextNoteIndex : Nat
  activeNotes : List (NoteKey × Note)
  matchDuration : Bool
  scrollZ : ℚ
  synth : SynthState
  keyboard : Keyboard
  vis : VisState
  deriving Repr, DecidableEq

/-- The brightened color pressed onto a key for a channel. -/
def activePressColor (channel : Nat) : Color :=
  colorAddScalar (channelBaseColor channel) ACTIVE_BRIGHTNESS

/-- The notes-on sweep over the remaining suffix of notesToPlay: while the
cursor points at a note with startTime ≤ elapsedTime, play it, press its
key, record it in the active map and advance the cursor. -/
def notesOnAux (e : ℚ) :
    List PlayableNote → Nat → List (NoteKey × Note) → SynthState → Keyboard →
    Nat × List (NoteKey × Note) × SynthState × Keyboard
  | [], i, act, sy, kb => (i, act, sy, kb)
  | p :: rest, i, act, sy, kb =>
    if p.note.time ≤ e then
      notesOnAux e rest (i + 1) (mapSet act (pnKey p) p.note)
        (synthPlayNote p.note sy) (kbPress p.note.midi (activePressColor p.channel) kb)
    else (i, act, sy, kb)

/-- The notes-on sweep from the current cursor. -/
def notesOn (e : ℚ) (notes : List PlayableNote) (i : Nat)
    (act : List (NoteKey × Note)) (sy : SynthState) (kb : Keyboard) :
    Nat × List (NoteKey × Note) × SynthState × Keyboard :=
  notesOnAux e (notes.drop i) i act sy kb

/-- The notes-off sweep: every active entry whose end time has been
reached is stopped (unless the audio layer self-terminates via
matchDuration), its key released, and the entry deleted. -/
def notesOff (e : ℚ) (md : Bool) :
    List (NoteKey × Note) → SynthState → Keyboard →
    List (NoteKey × Note) × SynthState × Keyboard
  | [], sy, kb => ([], sy, kb)
  | (k, n) :: rest, sy, kb =>
    if n.time + n.duration ≤ e then
      notesOff e md rest (if md then sy else synthStopNote n.midi sy) (kbRelease n.midi kb)
    else
      let r := notesOff e md rest sy kb
      ((k, n) :: r.1, r.2.1, r.2.2)

/-- MidiVisualizer.resetPlayback. -/
def resetPlayback (s : PlayerState) : PlayerState :=
  { s with isPlaying := false, elapsedTime := 0, audioContextStartTime := 0,
           nextNoteIndex := 0, scrollZ := 0,
           synth := synthStopAllNotes s.synth,
           keyboard := kbReleaseAll s.keyboard,
           activeNotes := [],
           vis := resetVisuals s.vis }

/-- MidiVisualizer.updatePlayback for a loaded score, one frame at audio
clock time now: recompute elapsedTime from the playback origin; at or past
the end of the score clamp to the duration and reset; otherwise run the
notes-on and notes-off sweeps and scroll the note objects. -/
def updatePlayback (now : ℚ) (s : PlayerState) : PlayerState :=
  if ¬ s.isPlaying then s
  else
    let e := now - s.audioContextStartTime
    if s.duration ≤ e then resetPlayback { s with elapsedTime := s.duration }
    else
      let swept := notesOn e s.notesToPlay s.nextNoteIndex s.activeNotes s.synth s.keyboard
      let off := notesOff e s.matchDuration swept.2.1 swept.2.2.1 swept.2.2.2
      { s with elapsedTime := e, nextNoteIndex := swept.1,
               activeNotes := off.1, synth := off.2.1, keyboard := off.2.2,
               scrollZ := e * TIME_SCALE }

/-- The re-synchronization rescan of handleSeek and skipTime: every note of
the whole list whose interval strictly contains the target on the right is
re-admitted with a key press (no audio re-trigger). -/
def rescanActive (e : ℚ) :
    List PlayableNote → List (NoteKey × Note) → Keyboard →
    List (NoteKey × Note) × Keyboard
  | [], act, kb => (act, kb)
  | p :: rest, act, kb =>
    if p.note.time ≤ e ∧ e < p.note.time + p.note.duration then
      rescanActive e rest (mapSet act (pnKey p) p.note)
        (kbPress p.note.midi (activePressColor p.channel) kb)
    else rescanActive e rest act kb

/-- MidiVisualizer.handleSeek with the computed target time (in the source
the target is duration · percentage for a progress-bar fraction): set
elapsedTime, keep time continuity when playing, stop all audio and visual
feedback, recompute the cursor as the first note with startTime ≥ the
target, rescan the entire note list for active notes, and update the
visualizer. -/
def seekToTarget (now target : ℚ) (s : PlayerState) : PlayerState :=
  let origin := if s.isPlaying then now - target else s.audioContextStartTime
  let cleared : PlayerState :=
    { s with elapsedTime := target, audioContextStartTime := origin,
             synth := synthStopAllNotes s.synth,
             keyboard := kbReleaseAll s.keyboard,
             activeNotes := [],
             vis := resetVisuals s.vis }
  let cursor := s.notesToPlay.findIdx (fun p => decide (target ≤ p.note.time))
  let r := rescanActive target s.notesToPlay cleared.activeNotes cleared.keyboard
  { cleared with nextNoteIndex := cursor, activeNotes := r.1, keyboard := r.2,
                 vis := visUpdate target r.1 cleared.vis }

/-- MidiVisualizer.skipTime: clamp elapsedTime + delta to the score bounds
and re-synchronize exactly as handleSeek does (the source duplicates the
body). -/
def skipTime (now delta : ℚ) (s : PlayerState) : PlayerState :=
  let target := max 0 (min s.duration (s.elapsedTime + delta))
  let origin := if s.isPlaying then now - target else s.audioContextStartTime
  let cleared : PlayerState :=
    { s with elapsedTime := target, audioContextStartTime := origin,
             synth := synthStopAllNotes s.synth,
             keyboard := kbReleaseAll s.keyboard,
             activeNotes := [],
             vis := resetVisuals s.vis }
  let cursor := s.notesToPlay.findIdx (fun p => decide (target ≤ p.note.time))
  let r := rescanActive target s.notesToPlay cleared.activeNotes cleared.keyboard
  { cleared with nextNoteIndex := cursor, activeNotes := r.1, keyboard := r.2,
                 vis := visUpdate target r.1 cleared.vis }

/-- The seek operation of spec 4.4, which clamps its target to
[0, totalDuration] before re-synchronizing; on the reachable inputs of
handleSeek (a progress fraction in [0,1]) the clamp is the identity. -/
def seekSpec (now target : ℚ) (s : PlayerState) : PlayerState :=
  seekToTarget now (max 0 (min s.duration target)) s

/-- The player state right after loading a score and pressing play at
origin o: transport playing from elapsedTime 0, cursor at 0, no active
notes. -/
def startState (notes : List PlayableNote) (dur : ℚ) (md : Bool) (o : ℚ)
    (sy : SynthState) (kb : Keyboard) (vis : VisState) : PlayerState :=
  { isPlaying := true, duration := dur, notesToPlay := notes,
    elapsedTime := 0, audioContextStartTime := o, nextNoteIndex := 0,
    activeNotes := [], matchDuration := md, scrollZ := 0,
    synth := sy, keyboard := kb, vis := vis }

/-- The set of notes sounding at time t as a map in score order: exactly
those with startTime ≤ t < startTime + duration. -/
def activeAt (notes : List PlayableNote) (t : ℚ) : List (NoteKey × Note) :=
  (notes.filter (fun p => decide (p.note.time ≤ t ∧ t < p.note.time + p.note.duration))).map
    (fun p => (pnKey p, p.note))

/-- The synchronizer invariant at frame time T: the transport is playing
from origin o over the given score, the active map is exactly the notes
sounding at T, and the cursor sits right past the notes already
triggered. -/
@[reducible] def SyncInv (notes : List PlayableNote) (dur o T : ℚ) (s : PlayerState) : Prop :=
  s.isPlaying = true ∧ s.audioContextStartTime = o ∧ s.duration = dur ∧
  s.notesToPlay = notes ∧ s.activeNotes = activeAt notes T ∧
  s.nextNoteIndex = (notes.takeWhile (fun p => decide (p.note.time ≤ T))).length

/-! ## The Piano of src/src/Piano.ts

Its keys map holds one mesh per midi note 21 to 108; pressKey saves the
current material color into originalKeyColors only when absent, then
paints the fixed active color; releaseKey restores the saved color when
one exists. -/

/-- The idle material color a key mesh is created with. -/
def idleKeyColor (m : Nat) : Color :=
  if isBlackKey m then colorOfHex 0x222222 else colorOfHex 0xffffff

/-- The fixed pressed color 0x3498db. -/
def activeKeyColor : Color := colorOfHex 0x3498db

/-- The mutable state of the Piano: the material color of each existing
key mesh, and the saved originalKeyColors map. -/
structure PianoKb where
  keyColors : List (Nat × Color)
  originalKeyColors : List (Nat × Color)
  deriving Repr, DecidableEq

/-- The piano after createKeys: keys 21..108 in their idle colors, no
saved original colors. -/
def initPianoKb : PianoKb :=
  { keyColors := (List.range 88).map (fun i => (i + 21, idleKeyColor (i + 21))),
    originalKeyColors := [] }

/-- Piano.pressKey: a no-op for a pitch without a key; otherwise save the
current color on first press only, then paint the active color. -/
def pianoPressKey (m : Nat) (s : PianoKb) : PianoKb :=
  match mapGet s.keyColors m with
  | none => s
  | some c =>
    { keyColors := mapSet s.keyColors m activeKeyColor,
      originalKeyColors :=
        match mapGet s.originalKeyColors m with
        | some _ => s.originalKeyColors
        | none => mapSet s.originalKeyColors m c }

/-- Piano.releaseKey: restore the saved color when the key exists and a
color was saved; otherwise a no-op. -/
def pianoReleaseKey (m : Nat) (s : PianoKb) : PianoKb :=
  match mapGet s.keyColors m, mapGet s.originalKeyColors m with
  | some _, some c => { s with keyColors := mapSet s.keyColors m c }
  | _, _ => s

/-- An interaction with the piano keyboard. -/
inductive PianoOp where
  | press (m : Nat)
  | release (m : Nat)
  deriving Repr, DecidableEq

/-- One interaction step. -/
def pianoStep (s : PianoKb) : PianoOp → PianoKb
  | .press m => pianoPressKey m s
  | .release m => pianoReleaseKey m s

/-- Run a sequence of key presses and releases. -/
def pianoRun (ops : List PianoOp) (s : PianoKb) : PianoKb :=
  ops.foldl pianoStep s

/-- The reachable-state invariant of the Piano: every saved original
color is the key's idle color, a key with no saved color still shows its
creation color, and key existence never changes. -/
def PianoInv (s : PianoKb) : Prop :=
  (∀ m c, mapGet s.originalKeyColors m = some c → c = idleKeyColor m) ∧
  (∀ m, mapGet s.originalKeyColors m = none →
    mapGet s.keyColors m = mapGet initPianoKb.keyColors m) ∧
  (∀ m, (mapGet s.keyColors m).isSome ↔ (mapGet initPianoKb.keyColors m).isSome)

/-! ## The NoteVisualizer variant of src/unnamed/part_000

Its visualize method collects every non-percussion note into noteMap and
allNotes first; with zero playable notes it returns early, building no
mesh; otherwise it sorts, assigns instance ids and allocates one instanced
mesh over all notes.  No error is ever thrown. -/

/-- Modelled from the spec: the EmptyScoreError the spec names for a score
with no playable notes; no such error type exists anywhere in the provided
sources, so the embedding supplies it as the error channel of the
visualize method to make the claim statable. -/
inductive VisError where
  | emptyScore
  deriving Repr, DecidableEq

/-- The result of the part_000 visualize: the collected playable notes in
track order and the instance count of the allocated mesh, none when the
early return fired. -/
structure P0Build where
  allNotes : List PlayableNote
  meshCount : Option Nat
  deriving Repr, DecidableEq

/-- The playable notes a score yields: every note of every track whose
channel is not 9, in track order. -/
def playableNotes (tracks : List Track) : List PlayableNote :=
  tracks.foldr
    (fun t acc =>
      if t.channel = 9 then acc
      else t.notes.map (fun n => { note := n, channel := t.channel }) ++ acc)
    []

/-- The part_000 NoteVisualizer.visualize: collect the playable notes;
when none remain return early with no mesh; otherwise allocate one
instanced mesh sized at the note count.  The method has no throw
statement, so the error branch of the embedding is never taken. -/
def visualizeP0 (tracks : List Track) : Except VisError P0Build :=
  let allNotes := playableNotes tracks
  if allNotes.length = 0 then .ok { allNotes := allNotes, meshCount := none }
  else .ok { allNotes := allNotes, meshCount := some allNotes.length }

/-! ## Concrete fixtures used by witnesses and counterexamples -/

/-- The total size of the channel groups. -/
def sizeSum (m : List (Nat × List Note)) : Nat := (m.map (fun g => g.2.length)).sum

def exSynth : SynthState := { activeOscillators := [], nextOscId := 0 }
def exKb : Keyboard := { pressed := [] }
def exVisEmpty : VisState := { notesByTime := [] }

/-- The three-note channel-0 score of the end-to-end scenario of spec 8. -/
def exNotes3 : List PlayableNote :=
  [{ note := { midi := 60, time := 0, duration := 1, velocity := 1 }, channel := 0 },
   { note := { midi := 62, time := 1/2, duration := 1, velocity := 1 }, channel := 0 },
   { note := { midi := 64, time := 2, duration := 1/2, velocity := 1 }, channel := 0 }]

/-- The player just after loading the three-note score and starting to
play at audio origin 100, with a score duration of 10. -/
def exStart3 : PlayerState := startState exNotes3 10 false 100 exSynth exKb exVisEmpty

/-- A one-track score with a single note starting at 2 with duration 1. -/
def exTrack2 : Track :=
  { channel := 0, notes := [{ midi := 60, time := 2, duration := 1, velocity := 1 }] }

/-- The player for that score, playing from origin 100, duration 10. -/
def exStart2 : PlayerState :=
  startState (playableNotes [exTrack2]) 10 false 100 exSynth exKb (buildVis [exTrack2])

/-- A score with a long note (start 0, duration 10) followed by a short
note (start 1, duration 1) on the same channel. -/
def exTrack4 : Track :=
  { channel := 0,
    notes := [{ midi := 60, time := 0, duration := 10, velocity := 1 },
              { midi := 62, time := 1, duration := 1, velocity := 1 }] }

/-- Its visualizer state as built. -/
def exVis4 : VisState := buildVis [exTrack4]

/-- A score with one note at start 100, duration 1. -/
def exTrack5 : Track :=
  { channel := 0, notes := [{ midi := 60, time := 100, duration := 1, velocity := 1 }] }

/-- Its visualizer state as built. -/
def exVis5 : VisState := buildVis [exTrack5]

/-- A score whose only track is the percussion channel: zero playable
notes remain after filtering. -/
def exTracks9 : List Track :=
  [{ channel := 9, notes := [{ midi := 60, time := 0, duration := 1, velocity := 1 }] }]

/-- The static transform an instance should carry, none when its pitch
has no key. -/
def origTransform (inst : NoteInstance) : Option Transform :=
  (keyX inst.note.midi).map (fun x => noteTransform x inst.channel inst.note)

/-- A matrix collapsed to zero scale, keeping the position. -/
def hiddenTransform (t : Transform) : Transform := { t with scale := (0, 0, 0) }

/-- The per-instance slot invariant: a visible instance carries its static
transform, a hidden one its zero-scale collapse (in particular its pitch
has a key). -/
@[reducible] def goodInst (inst : NoteInstance) : Prop :=
  (inst.visible = true → origTransform inst = some inst.transform) ∧
  (inst.visible = false → (origTransform inst).map hiddenTransform = some inst.transform)

/-- The visualizer invariant: instances sorted by start time, each slot
consistent. -/
@[reducible] def goodVis (vis : VisState) : Prop :=
  List.Pairwise (fun a b => a.note.time ≤ b.note.time) vis.notesByTime ∧
  ∀ inst ∈ vis.notesByTime, goodInst inst

/-- A note interval overlaps the visible window around elapsedTime. -/
@[reducible] def windowOverlap (e : ℚ) (inst : NoteInstance) : Prop :=
  e - LOOKBEHIND ≤ inst.note.time + inst.note.duration ∧
    inst.note.time ≤ e + LOOKAHEAD

/-- A standalone instance for the note at start 100, duration 1, carrying
its static transform. -/
def exInst5 : NoteInstance :=
  { note := { midi := 60, time := 100, duration := 1, velocity := 1 }, channel := 0,
    instanceId := 0, originalColor := channelBaseColor 0, visible := true,
    state := NState.normal, color := channelBaseColor 0,
    transform := noteTransform ((keyX 60).getD 0) 0
      { midi := 60, time := 100, duration := 1, velocity := 1 } }

/-- A visualizer state holding exactly that instance. -/
def exVis5b : VisState := { notesByTime := [exInst5] }

/-- A standalone instance for the note at start 2, duration 1. -/
def exInst2 : NoteInstance :=
  { note := { midi := 60, time := 2, duration := 1, velocity := 1 }, channel := 0,
    instanceId := 0, originalColor := channelBaseColor 0, visible := true,
    state := NState.normal, color := channelBaseColor 0,
    transform := noteTransform 0 0 { midi := 60, time := 2, duration := 1, velocity := 1 } }

/-- A visualizer state holding exactly that instance. -/
def exVis2 : VisState := { notesByTime := [exInst2] }

/-- A synth holding one active oscillator for pitch 60. -/
def exSynth1 : SynthState := { activeOscillators := [(60, 0)], nextOscId := 1 }

/-- A note at pitch 60. -/
def exNoteA : Note := { midi := 60, time := 0, duration := 1, velocity := 1 }

/-! ## Association-list lemmas -/

theorem mapGet_mapSet_self {κ ν : Type} [DecidableEq κ] (l : List (κ × ν)) (k : κ) (v : ν) :
    mapGet (mapSet l k v) k = some v := by
  induction l with
  | nil => simp [mapSet, mapGet]
  | cons hd tl ih =>
    obtain ⟨k₀, v₀⟩ := hd
    by_cases h : k₀ = k <;> simp [mapSet, mapGet, h, ih]

theorem mapGet_mapSet_ne {κ ν : Type} [DecidableEq κ] (l : List (κ × ν)) (k k₂ : κ) (v : ν)
    (h : k₂ ≠ k) : mapGet (mapSet l k v) k₂ = mapGet l k₂ := by
  induction l with
  | nil => simp [mapSet, mapGet, Ne.symm h]
  | cons hd tl ih =>
    obtain ⟨k₀, v₀⟩ := hd
    by_cases h₀ : k₀ = k
    · subst h₀
      simp [mapSet, mapGet, Ne.symm h]
    · simp [mapSet, mapGet, h₀, ih]

theorem mapGet_none_of_not_mem_keys {κ ν : Type} [DecidableEq κ] (l : List (κ × ν)) (k : κ)
    (h : k ∉ mapKeys l) : mapGet l k = none := by
  induction l with
  | nil => rfl
  | cons hd tl ih =>
    obtain ⟨k₀, v₀⟩ := hd
    simp only [mapKeys, List.map_cons, List.mem_cons] at h
    push_neg at h
    simpa [mapGet, Ne.symm h.1] using ih h.2

theorem mapGet_some_mem {κ ν : Type} [DecidableEq κ] (l : List (κ × ν)) (k : κ) (v : ν)
    (h : mapGet l k = some v) : (k, v) ∈ l := by
  induction l with
  | nil => simp [mapGet] at h
  | cons hd tl ih =>
    obtain ⟨k₀, v₀⟩ := hd
    by_cases h₀ : k₀ = k
    · subst h₀
      have h₂ : v₀ = v := by simpa [mapGet] using h
      rw [← h₂]
      exact List.mem_cons_self _ _
    · simp only [mapGet, if_neg h₀] at h
      exact List.mem_cons_of_mem _ (ih h)

theorem mapGet_isSome_of_mem_keys {κ ν : Type} [DecidableEq κ] (l : List (κ × ν)) (k : κ)
    (h : k ∈ mapKeys l) : (mapGet l k).isSome := by
  induction l with
  | nil => simp [mapKeys] at h
  | cons hd tl ih =>
    obtain ⟨k₀, v₀⟩ := hd
    by_cases h₀ : k₀ = k
    · simp [mapGet, h₀]
    · simp only [mapKeys, List.map_cons, List.mem_cons] at h
      rcases h with h | h
      · exact absurd h.symm h₀
      · simpa [mapGet, h₀] using ih h

theorem mapKeys_mapSet_of_mem {κ ν : Type} [DecidableEq κ] (l : List (κ × ν)) (k : κ) (v : ν)
    (h : k ∈ mapKeys l) : mapKeys (mapSet l k v) = mapKeys l := by
  induction l with
  | nil => simp [mapKeys] at h
  | cons hd tl ih =>
    obtain ⟨k₀, v₀⟩ := hd
    by_cases h₀ : k₀ = k
    · simp [mapSet, mapKeys, h₀]
    · simp only [mapKeys, List.map_cons, List.mem_cons] at h
      rcases h with h | h
      · exact absurd h.symm h₀
      · have h₂ : mapKeys (mapSet tl k v) = mapKeys tl := ih (by simpa [mapKeys] using h)
        simp only [mapSet, if_neg h₀, mapKeys, List.map_cons]
        simpa [mapKeys] using h₂

theorem mapSet_of_not_mem {κ ν : Type} [DecidableEq κ] (l : List (κ × ν)) (k : κ) (v : ν)
    (h : k ∉ mapKeys l) : mapSet l k v = l ++ [(k, v)] := by
  induction l with
  | nil => simp [mapSet]
  | cons hd tl ih =>
    obtain ⟨k₀, v₀⟩ := hd
    simp only [mapKeys, List.map_cons, List.mem_cons] at h
    push_neg at h
    simp [mapSet, Ne.symm h.1, ih h.2]

theorem mapGet_mapDelete_self {κ ν : Type} [DecidableEq κ] (l : List (κ × ν)) (k : κ)
    (h : (mapKeys l).Nodup) : mapGet (mapDelete l k) k = none := by
  induction l with
  | nil => rfl
  | cons hd tl ih =>
    obtain ⟨k₀, v₀⟩ := hd
    simp only [mapKeys, List.map_cons, List.nodup_cons] at h
    by_cases h₀ : k₀ = k
    · subst h₀
      simpa [mapDelete] using mapGet_none_of_not_mem_keys tl k₀ h.1
    · simpa [mapDelete, mapGet, h₀] using ih h.2

theorem mapGet_mapDelete_ne {κ ν : Type} [DecidableEq κ] (l : List (κ × ν)) (k k₂ : κ)
    (h : k₂ ≠ k) : mapGet (mapDelete l k) k₂ = mapGet l k₂ := by
  induction l with
  | nil => rfl
  | cons hd tl ih =>
    obtain ⟨k₀, v₀⟩ := hd
    by_cases h₀ : k₀ = k
    · subst h₀
      simp [mapDelete, mapGet, Ne.symm h]
    · simp [mapDelete, mapGet, h₀, ih]

theorem mapKeys_mapDelete_sublist {κ ν : Type} [DecidableEq κ] (l : List (κ × ν)) (k : κ) :
    (mapKeys (mapDelete l k)).Sublist (mapKeys l) := by
  induction l with
  | nil => simp [mapDelete]
  | cons hd tl ih =>
    obtain ⟨k₀, v₀⟩ := hd
    by_cases h₀ : k₀ = k
    · simp only [mapDelete, if_pos h₀, mapKeys, List.map_cons]
      exact List.sublist_cons_self _ _
    · simpa [mapDelete, h₀, mapKeys] using ih

/-! ## Counting lemmas for the channel grouping -/

theorem sizeSum_addToGroup (m : List (Nat × List Note)) (c : Nat) (n : Note) :
    sizeSum (addToGroup m c n) = sizeSum m + 1 := by
  induction m with
  | nil => simp [addToGroup, sizeSum]
  | cons g rest ih =>
    obtain ⟨c₀, ns⟩ := g
    by_cases h : c₀ = c
    · simp [addToGroup, h, sizeSum]
      omega
    · simp [addToGroup, h, sizeSum] at ih ⊢
      omega

theorem sizeSum_foldNotes (notes : List Note) (c : Nat) (m : List (Nat × List Note)) :
    sizeSum (notes.foldl (fun m₂ note => addToGroup m₂ c note) m) = sizeSum m + notes.length := by
  induction notes generalizing m with
  | nil => simp
  | cons n rest ih =>
    simp only [List.foldl_cons, List.length_cons]
    rw [ih, sizeSum_addToGroup]
    omega

theorem playableNotes_cons (t : Track) (ts : List Track) :
    playableNotes (t :: ts) =
      (if t.channel = 9 then [] else t.notes.map (fun n => { note := n, channel := t.channel }))
        ++ playableNotes ts := by
  by_cases h : t.channel = 9 <;> simp [playableNotes, h]

theorem sizeSum_notesByChannel_aux (tracks : List Track) (m : List (Nat × List Note)) :
    sizeSum (tracks.foldl
      (fun m₂ track =>
        if track.channel = 9 then m₂
        else track.notes.foldl (fun m₃ note => addToGroup m₃ track.channel note) m₂) m)
      = sizeSum m + (playableNotes tracks).length := by
  induction tracks generalizing m with
  | nil => simp [playableNotes]
  | cons t ts ih =>
    rw [List.foldl_cons, ih, playableNotes_cons]
    by_cases h : t.channel = 9
    · simp [h]
    · simp [h, sizeSum_foldNotes]
      omega

/-! ## Claim theorems -/

/-- C7: For every score, the sum of the per-channel GPU instance batch
sizes produced by NoteVisualizer.visualize equals the number of notes on
non-percussion tracks (channel 9 excluded); each batch is sized at the
channel's full note count before any per-note pitch-range skip. -/
theorem batch_sizes_sum_eq_playable_count (tracks : List Track) :
    (((visualize tracks).batches).map Prod.snd).sum = (playableNotes tracks).length := by
  have h : ((visualize tracks).batches).map Prod.snd
      = (notesByChannel tracks).map (fun g => g.2.length) := by
    simp [visualize, List.map_map]
  rw [h]
  have h₂ := sizeSum_notesByChannel_aux tracks []
  simpa [sizeSum, notesByChannel] using h₂

/-- C8 counterexample: building the part_000 visualization from a score
whose only notes sit on the percussion channel does not fail with
EmptyScoreError; the method returns normally with no mesh allocated. -/
theorem visualizeP0_percussion_only_not_error :
    visualizeP0 exTracks9 ≠ Except.error VisError.emptyScore ∧
      visualizeP0 exTracks9 = Except.ok { allNotes := [], meshCount := none } := by
  have h : visualizeP0 exTracks9 = Except.ok { allNotes := [], meshCount := none } := by
    with_unfolding_all rfl
  exact ⟨by rw [h]; exact fun hc => Except.noConfusion hc, h⟩

/-- C8 (amended): building the visualization from a score with zero
playable notes after filtering out channel 9 returns successfully via the
early return, allocating no mesh: the empty state itself is the benign
no-op, and no EmptyScoreError exists in the code. -/
theorem visualizeP0_empty_is_ok (tracks : List Track)
    (h : playableNotes tracks = []) :
    visualizeP0 tracks = Except.ok { allNotes := [], meshCount := none } := by
  simp [visualizeP0, h]

/-- Witness for the amended C8 theorem at the percussion-only score. -/
theorem visualizeP0_empty_is_ok_witness :
    playableNotes exTracks9 = [] ∧
      visualizeP0 exTracks9 = Except.ok { allNotes := [], meshCount := none } :=
  ⟨by with_unfolding_all rfl, visualizeP0_empty_is_ok exTracks9 (by with_unfolding_all rfl)⟩

/-- C5 counterexample: resetVisuals does not force full visibility — for
the one-note score at start 100, culled at elapsedTime 50, the instance
still has visible = false after resetVisuals. -/
theorem resetVisuals_keeps_hidden :
    ((resetVisuals (visUpdate 50 [] exVis5)).notesByTime.map (fun i => i.visible)) = [false] := by
  with_unfolding_all rfl

/-- C5 (amended): resetVisuals is idempotent, and after a single call
every instance has the normal state and its base color, while the visible
flag (and the instance matrix) is left unchanged rather than forced to
true. -/
theorem resetVisuals_idempotent_and_normal (vis : VisState) :
    resetVisuals (resetVisuals vis) = resetVisuals vis ∧
      (resetVisuals vis).notesByTime.map (fun i => i.state)
        = List.replicate vis.notesByTime.length NState.normal ∧
      (resetVisuals vis).notesByTime.map (fun i => i.color)
        = vis.notesByTime.map (fun i => i.originalColor) ∧
      (resetVisuals vis).notesByTime.map (fun i => i.visible)
        = vis.notesByTime.map (fun i => i.visible) := by
  refine ⟨?_, ?_, ?_, ?_⟩ <;>
    simp [resetVisuals, List.map_map, Function.comp_def, List.map_const']

/-- C6: skipTime(delta) is equivalent to a seek whose target is the old
elapsedTime plus delta, where seek clamps its target to
[0, totalDuration] as spec 4.4 prescribes: both stop all audio, release
all keys, clear and rebuild the active set by a full rescan, recompute
the cursor by search, reset and update the visuals, and recompute the
playback origin when playing. -/
theorem skipTime_eq_seekSpec (now delta : ℚ) (s : PlayerState) :
    skipTime now delta s = seekSpec now (s.elapsedTime + delta) s := rfl


/-- C3: while playing, the frame update recomputes elapsedTime as
now - playbackOrigin; with a monotone clock the result always lies in
[0, totalDuration], and whenever it reaches or exceeds totalDuration the
transport clamps it to totalDuration and transitions to stopped,
resetting elapsedTime to 0 (auto-reset at end of score). -/
theorem updatePlayback_elapsed_bounds (now : ℚ) (s : PlayerState)
    (hp : s.isPlaying = true) (h0 : s.audioContextStartTime ≤ now)
    (hd : 0 ≤ s.duration) :
    (0 ≤ (updatePlayback now s).elapsedTime ∧
      (updatePlayback now s).elapsedTime ≤ s.duration) ∧
    (s.duration ≤ now - s.audioContextStartTime →
      (updatePlayback now s).isPlaying = false ∧
        (updatePlayback now s).elapsedTime = 0) := by
  by_cases hend : s.duration ≤ now - s.audioContextStartTime
  · simp [updatePlayback, hp, hend, resetPlayback, hd]
  · have h₁ : 0 ≤ now - s.audioContextStartTime := by linarith
    have h₂ : now - s.audioContextStartTime ≤ s.duration := by linarith
    simp [updatePlayback, hp, hend, h₁, h₂]

/-- Witness for the C3 theorem at the loaded three-note score, frame at
audio time 103 from origin 100. -/
theorem updatePlayback_elapsed_bounds_witness :
    exStart3.isPlaying = true ∧ exStart3.audioContextStartTime ≤ 103 ∧
      (0 : ℚ) ≤ exStart3.duration ∧
      (0 ≤ (updatePlayback 103 exStart3).elapsedTime ∧
        (updatePlayback 103 exStart3).elapsedTime ≤ exStart3.duration) :=
  ⟨rfl, by with_unfolding_all decide, by with_unfolding_all decide,
    (updatePlayback_elapsed_bounds 103 exStart3 rfl
      (by with_unfolding_all decide) (by with_unfolding_all decide)).1⟩

/-! ## Synth lemmas for the oscillator invariant -/

theorem foldl_mapDelete_keys {κ ν : Type} [DecidableEq κ] (l : List (κ × ν)) :
    (mapKeys l).foldl (fun acc k => mapDelete acc k) l = [] := by
  induction l with
  | nil => rfl
  | cons hd tl ih =>
    obtain ⟨k, v⟩ := hd
    simpa [mapKeys, mapDelete] using ih

theorem foldl_synthStopNote_oscillators (ks : List Nat) (s : SynthState) :
    (ks.foldl (fun st midi => synthStopNote midi st) s).activeOscillators
      = ks.foldl (fun l k => mapDelete l k) s.activeOscillators := by
  induction ks generalizing s with
  | nil => rfl
  | cons k rest ih =>
    rw [List.foldl_cons, List.foldl_cons]
    exact ih (synthStopNote k s)

theorem synthStopAllNotes_empty (s : SynthState) :
    (synthStopAllNotes s).activeOscillators = [] := by
  rw [synthStopAllNotes, foldl_synthStopNote_oscillators, foldl_mapDelete_keys]

/-- C10: the Synth holds at most one active oscillator per midi pitch: on
the oscillator path a re-trigger of a pitch that already has an active
oscillator is a silent no-op leaving the whole synth state unchanged;
stopNote removes exactly that pitch's entry and no other; and the
no-duplicate-keys invariant of the oscillator map is preserved by
playNote, stopNote and stopAllNotes. -/
theorem synth_one_oscillator_per_pitch (s : SynthState) (note : Note) (m : Nat)
    (h : (mapKeys s.activeOscillators).Nodup) :
    (note.midi ∈ mapKeys s.activeOscillators → synthPlayNote note s = s) ∧
    (mapGet (synthStopNote m s).activeOscillators m = none ∧
      ∀ k, k ≠ m →
        mapGet (synthStopNote m s).activeOscillators k = mapGet s.activeOscillators k) ∧
    ((mapKeys (synthPlayNote note s).activeOscillators).Nodup ∧
      (mapKeys (synthStopNote m s).activeOscillators).Nodup ∧
      (synthStopAllNotes s).activeOscillators = []) := by
  refine ⟨?_, ⟨?_, ?_⟩, ?_, ?_, synthStopAllNotes_empty s⟩
  · intro hm
    simp [synthPlayNote, playOscillatorNote, hm]
  · exact mapGet_mapDelete_self _ _ h
  · intro k hk
    exact mapGet_mapDelete_ne _ _ _ hk
  · by_cases hm : note.midi ∈ mapKeys s.activeOscillators
    · simpa [synthPlayNote, playOscillatorNote, hm] using h
    · simp only [synthPlayNote, playOscillatorNote]
      rw [if_neg hm]
      simp only [mapKeys, List.map_append, List.map_cons, List.map_nil]
      rw [List.nodup_append]
      refine ⟨h, List.nodup_singleton _, ?_⟩
      simpa [List.disjoint_singleton, mapKeys] using hm
  · exact h.sublist (mapKeys_mapDelete_sublist _ _)

/-- Witness for the C10 theorem: with one oscillator active at pitch 60,
re-triggering pitch 60 leaves the synth unchanged. -/
theorem synth_one_oscillator_per_pitch_witness :
    (mapKeys exSynth1.activeOscillators).Nodup ∧
      exNoteA.midi ∈ mapKeys exSynth1.activeOscillators ∧
      synthPlayNote exNoteA exSynth1 = exSynth1 :=
  ⟨by decide, by decide,
    (synth_one_oscillator_per_pitch exSynth1 exNoteA 60 (by decide)).1 (by decide)⟩

/-! ## Piano invariant lemmas (C9) -/

theorem initPianoKb_values (m : Nat) (c : Color)
    (h : mapGet initPianoKb.keyColors m = some c) : c = idleKeyColor m := by
  have hm := mapGet_some_mem _ _ _ h
  simp only [initPianoKb] at hm
  rw [List.mem_map] at hm
  obtain ⟨i, _, he⟩ := hm
  injection he with he₁ he₂
  rw [← he₂, he₁]

theorem initPianoKb_isSome (p : Nat) (h₁ : 21 ≤ p) (h₂ : p ≤ 108) :
    (mapGet initPianoKb.keyColors p).isSome := by
  apply mapGet_isSome_of_mem_keys
  simp only [initPianoKb, mapKeys, List.map_map]
  rw [List.mem_map]
  refine ⟨p - 21, ?_, ?_⟩
  · rw [List.mem_range]; omega
  · simp only [Function.comp_apply]; omega

theorem pianoInv_init : PianoInv initPianoKb := by
  refine ⟨?_, ?_, ?_⟩
  · intro m c h
    simp [initPianoKb, mapGet] at h
  · intro m _
    rfl
  · intro m
    exact Iff.rfl

theorem pianoInv_press (m : Nat) (s : PianoKb) (h : PianoInv s) :
    PianoInv (pianoPressKey m s) := by
  obtain ⟨h₁, h₂, h₃⟩ := h
  unfold pianoPressKey
  cases hc : mapGet s.keyColors m with
  | none => exact ⟨h₁, h₂, h₃⟩
  | some c =>
    cases ho : mapGet s.originalKeyColors m with
    | some c₀ =>
      refine ⟨h₁, ?_, ?_⟩
      · intro m₂ hm₂
        by_cases he : m₂ = m
        · subst he
          rw [ho] at hm₂
          cases hm₂
        · rw [mapGet_mapSet_ne _ _ _ _ he]
          exact h₂ m₂ hm₂
      · intro m₂
        by_cases he : m₂ = m
        · subst he
          rw [mapGet_mapSet_self]
          rw [← h₃ m₂, hc]
          simp
        · rw [mapGet_mapSet_ne _ _ _ _ he]
          exact h₃ m₂
    | none =>
      have hcv : c = idleKeyColor m := by
        have := h₂ m ho
        rw [hc] at this
        exact initPianoKb_values m c this.symm
      refine ⟨?_, ?_, ?_⟩
      · intro m₂ c₂ hm₂
        by_cases he : m₂ = m
        · subst he
          rw [mapGet_mapSet_self] at hm₂
          injection hm₂ with hm₂
          rw [← hm₂, hcv]
        · rw [mapGet_mapSet_ne _ _ _ _ he] at hm₂
          exact h₁ m₂ c₂ hm₂
      · intro m₂ hm₂
        by_cases he : m₂ = m
        · subst he
          rw [mapGet_mapSet_self] at hm₂
          cases hm₂
        · rw [mapGet_mapSet_ne _ _ _ _ he] at hm₂
          rw [mapGet_mapSet_ne _ _ _ _ he]
          exact h₂ m₂ hm₂
      · intro m₂
        by_cases he : m₂ = m
        · subst he
          rw [mapGet_mapSet_self]
          rw [← h₃ m₂, hc]
          simp
        · rw [mapGet_mapSet_ne _ _ _ _ he]
          exact h₃ m₂

theorem pianoInv_release (m : Nat) (s : PianoKb) (h : PianoInv s) :
    PianoInv (pianoReleaseKey m s) := by
  obtain ⟨h₁, h₂, h₃⟩ := h
  unfold pianoReleaseKey
  cases hc : mapGet s.keyColors m with
  | none => exact ⟨h₁, h₂, h₃⟩
  | some c =>
    cases ho : mapGet s.originalKeyColors m with
    | none => exact ⟨h₁, h₂, h₃⟩
    | some c₀ =>
      refine ⟨h₁, ?_, ?_⟩
      · intro m₂ hm₂
        by_cases he : m₂ = m
        · subst he
          rw [ho] at hm₂
          cases hm₂
        · rw [mapGet_mapSet_ne _ _ _ _ he]
          exact h₂ m₂ hm₂
      · intro m₂
        by_cases he : m₂ = m
        · subst he
          rw [mapGet_mapSet_self]
          rw [← h₃ m₂, hc]
          simp
        · rw [mapGet_mapSet_ne _ _ _ _ he]
          exact h₃ m₂

theorem pianoInv_step (s : PianoKb) (op : PianoOp) (h : PianoInv s) :
    PianoInv (pianoStep s op) := by
  cases op with
  | press m => exact pianoInv_press m s h
  | release m => exact pianoInv_release m s h

theorem pianoInv_run (ops : List PianoOp) (s : PianoKb) (h : PianoInv s) :
    PianoInv (pianoRun ops s) := by
  induction ops generalizing s with
  | nil => exact h
  | cons op rest ih => exact ih (pianoStep s op) (pianoInv_step s op h)

theorem orig_preserved_step (s : PianoKb) (op : PianoOp) (m : Nat) (c : Color)
    (h : mapGet s.originalKeyColors m = some c) :
    mapGet (pianoStep s op).originalKeyColors m = some c := by
  cases op with
  | press m₂ =>
    simp only [pianoStep]
    unfold pianoPressKey
    cases hc : mapGet s.keyColors m₂ with
    | none => exact h
    | some c₂ =>
      cases ho : mapGet s.originalKeyColors m₂ with
      | some c₃ => exact h
      | none =>
        have he : m ≠ m₂ := by
          intro he
          rw [he, ho] at h
          cases h
        rw [mapGet_mapSet_ne _ _ _ _ he]
        exact h
  | release m₂ =>
    simp only [pianoStep]
    unfold pianoReleaseKey
    cases hc : mapGet s.keyColors m₂ with
    | none => exact h
    | some c₂ =>
      cases ho : mapGet s.originalKeyColors m₂ with
      | none => exact h
      | some c₃ => exact h

theorem orig_preserved_run (ops : List PianoOp) (s : PianoKb) (m : Nat) (c : Color)
    (h : mapGet s.originalKeyColors m = some c) :
    mapGet (pianoRun ops s).originalKeyColors m = some c := by
  induction ops generalizing s with
  | nil => exact h
  | cons op rest ih => exact ih (pianoStep s op) (orig_preserved_step s op m c h)

theorem press_saves_idle (p : Nat) (s : PianoKb) (h : PianoInv s)
    (hk : (mapGet initPianoKb.keyColors p).isSome) :
    mapGet (pianoPressKey p s).originalKeyColors p = some (idleKeyColor p) := by
  obtain ⟨h₁, h₂, h₃⟩ := h
  have hks : (mapGet s.keyColors p).isSome := (h₃ p).mpr hk
  unfold pianoPressKey
  cases hc : mapGet s.keyColors p with
  | none => rw [hc] at hks; cases hks
  | some c =>
    cases ho : mapGet s.originalKeyColors p with
    | some c₀ =>
      rw [ho, h₁ p c₀ ho]
    | none =>
      rw [mapGet_mapSet_self]
      have := h₂ p ho
      rw [hc] at this
      rw [initPianoKb_values p c this.symm]

theorem pressed_in_run_saves (ops : List PianoOp) (p : Nat) (s : PianoKb)
    (h : PianoInv s) (hk : (mapGet initPianoKb.keyColors p).isSome)
    (hmem : PianoOp.press p ∈ ops) :
    mapGet (pianoRun ops s).originalKeyColors p = some (idleKeyColor p) := by
  induction ops generalizing s with
  | nil => cases hmem
  | cons op rest ih =>
    by_cases he : op = PianoOp.press p
    · subst he
      exact orig_preserved_run rest _ p _ (press_saves_idle p s h hk)
    · have hmem₂ : PianoOp.press p ∈ rest := by
        rcases List.mem_cons.mp hmem with h₀ | h₀
        · exact absurd h₀.symm he
        · exact h₀
      exact ih (pianoStep s op) (pianoInv_step s op h) hmem₂

theorem not_pressed_orig_none (ops : List PianoOp) (p : Nat) (s : PianoKb)
    (hmem : PianoOp.press p ∉ ops) (h : mapGet s.originalKeyColors p = none) :
    mapGet (pianoRun ops s).originalKeyColors p = none := by
  induction ops generalizing s with
  | nil => exact h
  | cons op rest ih =>
    have hop : op ≠ PianoOp.press p := fun he => hmem (he ▸ List.mem_cons_self _ _)
    have hrest : PianoOp.press p ∉ rest := fun hr => hmem (List.mem_cons_of_mem _ hr)
    refine ih (pianoStep s op) hrest ?_
    cases op with
    | press m₂ =>
      have hne : p ≠ m₂ := fun he => hop (by rw [he])
      simp only [pianoStep]
      unfold pianoPressKey
      cases hc : mapGet s.keyColors m₂ with
      | none => exact h
      | some c₂ =>
        cases ho : mapGet s.originalKeyColors m₂ with
        | some c₃ => exact h
        | none =>
          rw [mapGet_mapSet_ne _ _ _ _ hne]
          exact h
    | release m₂ =>
      simp only [pianoStep]
      unfold pianoReleaseKey
      cases hc : mapGet s.keyColors m₂ with
      | none => exact h
      | some c₂ =>
        cases ho : mapGet s.originalKeyColors m₂ with
        | none => exact h
        | some c₃ => exact h

theorem release_of_orig_none (p : Nat) (s : PianoKb)
    (h : mapGet s.originalKeyColors p = none) : pianoReleaseKey p s = s := by
  unfold pianoReleaseKey
  cases hc : mapGet s.keyColors p with
  | none => rfl
  | some c => rw [h]

/-- C9: for every pitch with a key on the 88-key keyboard, releaseKey
restores the key's original idle color after any sequence of interactions
containing at least one pressKey of that pitch — the original color is
saved only on the first press, so repeated or overlapping presses never
overwrite it — and releaseKey on a key that was never pressed is a
complete no-op. -/
theorem piano_release_restores_idle (ops : List PianoOp) (p : Nat)
    (h₁ : 21 ≤ p) (h₂ : p ≤ 108) :
    (PianoOp.press p ∈ ops →
      mapGet (pianoReleaseKey p (pianoRun ops initPianoKb)).keyColors p
        = some (idleKeyColor p)) ∧
    (PianoOp.press p ∉ ops →
      pianoReleaseKey p (pianoRun ops initPianoKb) = pianoRun ops initPianoKb) := by
  have hk := initPianoKb_isSome p h₁ h₂
  have hInv := pianoInv_run ops initPianoKb pianoInv_init
  constructor
  · intro hmem
    have horig := pressed_in_run_saves ops p initPianoKb pianoInv_init hk hmem
    obtain ⟨i₁, i₂, i₃⟩ := hInv
    have hks : (mapGet (pianoRun ops initPianoKb).keyColors p).isSome := (i₃ p).mpr hk
    unfold pianoReleaseKey
    cases hc : mapGet (pianoRun ops initPianoKb).keyColors p with
    | none => rw [hc] at hks; cases hks
    | some c =>
      rw [horig]
      exact mapGet_mapSet_self _ _ _
  · intro hmem
    exact release_of_orig_none p _
      (not_pressed_orig_none ops p initPianoKb hmem rfl)

/-- Witness for the C9 theorem: pressing key 60 twice and releasing it
restores the idle white-key color. -/
theorem piano_release_restores_idle_witness :
    21 ≤ 60 ∧ 60 ≤ 108 ∧ PianoOp.press 60 ∈ [PianoOp.press 60, PianoOp.press 60] ∧
      mapGet (pianoReleaseKey 60
          (pianoRun [PianoOp.press 60, PianoOp.press 60] initPianoKb)).keyColors 60
        = some (idleKeyColor 60) :=
  ⟨by decide, by decide, by decide,
    (piano_release_restores_idle [PianoOp.press 60, PianoOp.press 60] 60
      (by decide) (by decide)).1 (by decide)⟩

/-! ## Per-frame instance-state lemmas (C2) -/

theorem mapIdxFrom_get? {α β : Type} (f : Nat → α → β) (k i : Nat) (l : List α) :
    (mapIdxFrom f k l).get? i = (l.get? i).map (f (k + i)) := by
  induction l generalizing k i with
  | nil => simp [mapIdxFrom]
  | cons a rest ih =>
    cases i with
    | zero => simp [mapIdxFrom]
    | succ n =>
      simp only [mapIdxFrom, List.get?_cons_succ]
      rw [ih]
      have he : k + 1 + n = k + (n + 1) := by omega
      rw [he]

theorem updateVisibleInstance_state (e : ℚ) (ak : List NoteKey) (inst : NoteInstance) :
    (updateVisibleInstance e ak inst).state = newStateFor e ak inst := by
  simp only [updateVisibleInstance]
  by_cases hv : inst.visible
  · simp only [if_pos hv]
    split
    · rfl
    · next h => exact not_not.mp h
  · simp only [if_neg hv]
    split
    · rfl
    · next h => exact not_not.mp h

theorem updateInstance_middle (e : ℚ) (ak : List NoteKey) (sI eI i : Nat)
    (inst : NoteInstance) (h₁ : ¬ i < sI) (h₂ : i < eI) :
    updateInstance e ak sI eI i inst = updateVisibleInstance e ak inst := by
  unfold updateInstance
  rw [if_neg h₁, if_pos h₂]

/-- C2 (amended): after the per-frame update at time elapsedTime, for an
instance inside the processed window whose active-set membership agrees
with the half-open sounding interval, a note with startTime == elapsedTime
is in the active state; a note with startTime + duration == elapsedTime
has left the active set but its instance state is normal, not finished —
it becomes finished only once startTime + duration < elapsedTime, because
the source computes isFinished with a strict comparison. -/
theorem note_boundary_states (e : ℚ) (act : List (NoteKey × Note)) (vis : VisState)
    (i : Nat) (inst : NoteInstance)
    (hi : vis.notesByTime.get? i = some inst)
    (hlo : cullStartIdx e vis.notesByTime ≤ i)
    (hhi : i < cullEndIdx e vis.notesByTime)
    (hact : instKey inst ∈ mapKeys act ↔
      (inst.note.time ≤ e ∧ e < inst.note.time + inst.note.duration))
    (hdur : 0 < inst.note.duration) :
    ∃ inst₂, (visUpdate e act vis).notesByTime.get? i = some inst₂ ∧
      (inst.note.time = e → inst₂.state = NState.active) ∧
      (inst.note.time + inst.note.duration = e → inst₂.state = NState.normal) ∧
      (inst.note.time + inst.note.duration < e → inst₂.state = NState.finished) := by
  have hlen : ¬ vis.notesByTime.length = 0 := by
    intro h0
    rw [List.length_eq_zero] at h0
    rw [h0] at hi
    cases hi
  refine ⟨updateVisibleInstance e (mapKeys act) inst, ?_, ?_, ?_, ?_⟩
  · simp only [visUpdate, if_neg hlen]
    rw [mapIdxFrom_get?, hi]
    rw [Option.map_some', Nat.zero_add]
    rw [updateInstance_middle e (mapKeys act) _ _ i inst (by omega) hhi]
  · intro hstart
    have hmem : instKey inst ∈ mapKeys act := by
      refine hact.mpr ⟨le_of_eq hstart, ?_⟩
      rw [← hstart] at *
      linarith
    rw [updateVisibleInstance_state, newStateFor, if_pos hmem]
  · intro hend
    have hmem : instKey inst ∉ mapKeys act := by
      intro hm
      have := (hact.mp hm).2
      rw [hend] at this
      exact lt_irrefl e this
    have hfin : ¬ inst.note.time + inst.note.duration < e := by
      rw [hend]
      exact lt_irrefl e
    rw [updateVisibleInstance_state, newStateFor, if_neg hmem, if_neg hfin]
  · intro hlt
    have hmem : instKey inst ∉ mapKeys act := by
      intro hm
      have := (hact.mp hm).2
      linarith
    rw [updateVisibleInstance_state, newStateFor, if_neg hmem, if_pos hlt]

/-- Witness for the amended C2 theorem: the instance for the note at
start 2, duration 1, updated at elapsedTime 3 with an empty active set,
ends up in the normal state. -/
theorem note_boundary_states_witness :
    ∃ inst₂, (visUpdate 3 [] exVis2).notesByTime.get? 0 = some inst₂ ∧
      inst₂.state = NState.normal := by
  obtain ⟨inst₂, hg, _, hend, _⟩ :=
    note_boundary_states 3 [] exVis2 0 exInst2 (by with_unfolding_all rfl)
      (by with_unfolding_all decide) (by with_unfolding_all decide)
      (by with_unfolding_all decide) (by with_unfolding_all decide)
  exact ⟨inst₂, hg, hend (by with_unfolding_all decide)⟩

/-- C2 counterexample: running the real frame pipeline on the one-note
score (start 2, duration 1) at elapsedTime exactly 3 leaves the instance
in the normal state, not the finished state the claim requires; at
elapsedTime 2.999 the same pipeline shows it active. -/
theorem note_at_exact_end_not_finished :
    (updatePlayback 103 exStart2).elapsedTime = 3 ∧
    ((visUpdate (updatePlayback 103 exStart2).elapsedTime
        (updatePlayback 103 exStart2).activeNotes
        (updatePlayback 103 exStart2).vis).notesByTime.map (fun i => i.state))
      ≠ [NState.finished] ∧
    ((visUpdate (updatePlayback 103 exStart2).elapsedTime
        (updatePlayback 103 exStart2).activeNotes
        (updatePlayback 103 exStart2).vis).notesByTime.map (fun i => i.state))
      = [NState.normal] ∧
    ((visUpdate (updatePlayback (100 + 2999/1000) exStart2).elapsedTime
        (updatePlayback (100 + 2999/1000) exStart2).activeNotes
        (updatePlayback (100 + 2999/1000) exStart2).vis).notesByTime.map (fun i => i.state))
      = [NState.active] := by
  have h₁ : ((visUpdate (updatePlayback 103 exStart2).elapsedTime
      (updatePlayback 103 exStart2).activeNotes
      (updatePlayback 103 exStart2).vis).notesByTime.map (fun i => i.state))
      = [NState.normal] := by with_unfolding_all rfl
  refine ⟨by with_unfolding_all rfl, ?_, h₁, by with_unfolding_all rfl⟩
  rw [h₁]
  exact fun hc => by cases hc

/-! ## Visibility-culling lemmas (C4) -/

theorem findIdx_le_of_get {α : Type} (l : List α) (p : α → Bool) (i : Nat) (x : α)
    (hg : l.get? i = some x) (hp : p x = true) : l.findIdx p ≤ i := by
  induction l generalizing i with
  | nil => cases hg
  | cons a rest ih =>
    cases i with
    | zero =>
      injection hg with hg
      subst hg
      simp [List.findIdx_cons, hp]
    | succ n =>
      rw [List.get?_cons_succ] at hg
      rw [List.findIdx_cons]
      by_cases hpa : p a
      · simp [hpa]
      · have := ih n hg
        simp only [hpa, cond_false]
        omega

theorem lt_findIdx_of_all_false {α : Type} (l : List α) (p : α → Bool) (i : Nat) (x : α)
    (hg : l.get? i = some x)
    (h : ∀ j y, j ≤ i → l.get? j = some y → p y = false) : i < l.findIdx p := by
  induction l generalizing i with
  | nil => cases hg
  | cons a rest ih =>
    have hpa : p a = false := h 0 a (Nat.zero_le i) rfl
    rw [List.findIdx_cons, hpa]
    simp only [cond_false]
    cases i with
    | zero => omega
    | succ n =>
      rw [List.get?_cons_succ] at hg
      have := ih n hg (fun j y hj hy => h (j + 1) y (by omega) (by simpa using hy))
      omega

theorem keyX_isSome_of_goodInst (inst : NoteInstance) (hg : goodInst inst) :
    (keyX inst.note.midi).isSome := by
  cases hx : keyX inst.note.midi with
  | some x => rfl
  | none =>
    by_cases hv : inst.visible
    · have := hg.1 hv
      rw [origTransform, hx] at this
      cases this
    · have := hg.2 (by simpa using hv)
      rw [origTransform, hx] at this
      cases this

theorem origTransform_showInst (inst : NoteInstance)
    (h : (keyX inst.note.midi).isSome) :
    origTransform inst = some ((showInst inst).transform) := by
  cases hx : keyX inst.note.midi with
  | none => rw [hx] at h; cases h
  | some x =>
    unfold origTransform showInst
    rw [hx]
    rfl

theorem updateVisibleInstance_visible (e : ℚ) (ak : List NoteKey) (inst : NoteInstance) :
    (updateVisibleInstance e ak inst).visible =
      (if inst.visible then inst else showInst inst).visible := by
  simp only [updateVisibleInstance]
  split <;> split <;> rfl

theorem updateVisibleInstance_transform (e : ℚ) (ak : List NoteKey) (inst : NoteInstance) :
    (updateVisibleInstance e ak inst).transform =
      (if inst.visible then inst else showInst inst).transform := by
  simp only [updateVisibleInstance]
  split <;> split <;> rfl

theorem updateVisibleInstance_fields (e : ℚ) (ak : List NoteKey) (inst : NoteInstance) :
    (updateVisibleInstance e ak inst).visible = true ∧
    (updateVisibleInstance e ak inst).transform =
      (if inst.visible then inst else showInst inst).transform := by
  refine ⟨?_, updateVisibleInstance_transform e ak inst⟩
  rw [updateVisibleInstance_visible]
  by_cases hv : inst.visible
  · rw [if_pos hv]
    exact hv
  · rw [if_neg hv]
    rfl

theorem updateInstance_outside (e : ℚ) (ak : List NoteKey) (sI eI i : Nat)
    (inst : NoteInstance) (h : i < sI ∨ eI ≤ i) :
    updateInstance e ak sI eI i inst = (if inst.visible then hideInst inst else inst) := by
  unfold updateInstance
  by_cases h₁ : i < sI
  · rw [if_pos h₁]
  · rw [if_neg h₁, if_neg (by omega : ¬ i < eI)]

/-- C4 (amended): after update(elapsedTime, activeNoteSet) with
LOOKBEHIND = 5 and LOOKAHEAD = 15, every instance whose interval overlaps
the window [elapsedTime - 5, elapsedTime + 15] is visible with its static
transform restored; hidden with a zero-scale collapse, however, are
exactly the instances before the first index whose interval end reaches
the window start, and those at or after the first index whose start
exceeds the window end — a non-overlapping instance that sits after a
longer, still-overlapping earlier note is processed as visible, so
non-overlap alone does not imply hidden.  The claim's own example (a note
at start 100, duration 1, hidden at elapsed 50, visible at elapsed 95)
does hold. -/
theorem culling_window (e : ℚ) (act : List (NoteKey × Note)) (vis : VisState)
    (hg : goodVis vis) (i : Nat) (inst : NoteInstance)
    (hi : vis.notesByTime.get? i = some inst) :
    ∃ inst₂, (visUpdate e act vis).notesByTime.get? i = some inst₂ ∧
      (windowOverlap e inst →
        inst₂.visible = true ∧ origTransform inst = some inst₂.transform) ∧
      ((i < cullStartIdx e vis.notesByTime ∨ cullEndIdx e vis.notesByTime ≤ i) →
        inst₂.visible = false ∧
          (origTransform inst).map hiddenTransform = some inst₂.transform) := by
  obtain ⟨hsorted, hinsts⟩ := hg
  have hmem : inst ∈ vis.notesByTime := List.get?_mem hi
  have hgood := hinsts inst hmem
  have hlen : ¬ vis.notesByTime.length = 0 := by
    intro h0
    rw [List.length_eq_zero] at h0
    rw [h0] at hi
    cases hi
  refine ⟨updateInstance e (mapKeys act) (cullStartIdx e vis.notesByTime)
    (cullEndIdx e vis.notesByTime) i inst, ?_, ?_, ?_⟩
  · simp only [visUpdate, if_neg hlen]
    rw [mapIdxFrom_get?, hi, Option.map_some', Nat.zero_add]
  · intro hov
    have h₁ : cullStartIdx e vis.notesByTime ≤ i :=
      findIdx_le_of_get _ _ i inst hi (decide_eq_true hov.1)
    have h₂ : i < cullEndIdx e vis.notesByTime := by
      apply lt_findIdx_of_all_false _ _ i inst hi
      intro j y hj hy
      have hyt : y.note.time ≤ e + LOOKAHEAD := by
        rcases Nat.lt_or_ge j i with hlt | hge
        · rw [List.get?_eq_some] at hi hy
          obtain ⟨hi₁, hi₂⟩ := hi
          obtain ⟨hy₁, hy₂⟩ := hy
          have hp := List.pairwise_iff_get.mp hsorted ⟨j, hy₁⟩ ⟨i, hi₁⟩ hlt
          rw [hy₂, hi₂] at hp
          exact le_trans hp hov.2
        · have hje : j = i := by omega
          rw [hje, hi] at hy
          injection hy with hy
          rw [hy] at hov
          exact hov.2
      exact decide_eq_false (not_lt.mpr hyt)
    rw [updateInstance_middle _ _ _ _ _ _ (by omega) h₂]
    obtain ⟨hvis, htr⟩ := updateVisibleInstance_fields e (mapKeys act) inst
    refine ⟨hvis, ?_⟩
    rw [htr]
    by_cases hvv : inst.visible
    · rw [if_pos hvv]
      exact hgood.1 hvv
    · rw [if_neg hvv]
      exact origTransform_showInst inst (keyX_isSome_of_goodInst inst hgood)
  · intro hout
    rw [updateInstance_outside _ _ _ _ _ _ hout]
    by_cases hvv : inst.visible
    · rw [if_pos hvv]
      refine ⟨rfl, ?_⟩
      rw [hgood.1 hvv]
      rfl
    · rw [if_neg hvv]
      exact ⟨by simpa using hvv, hgood.2 (by simpa using hvv)⟩

set_option maxRecDepth 100000 in
/-- Witness for the amended C4 theorem: the note at start 100, duration 1
overlaps the window at elapsedTime 95 and comes out visible. -/
theorem culling_window_witness :
    ∃ inst₂, (visUpdate 95 [] exVis5b).notesByTime.get? 0 = some inst₂ ∧
      inst₂.visible = true := by
  obtain ⟨inst₂, hg, hov, _⟩ :=
    culling_window 95 [] exVis5b
      (by constructor
          · with_unfolding_all decide
          · with_unfolding_all decide)
      0 exInst5 (by with_unfolding_all rfl)
  exact ⟨inst₂, hg, (hov (by with_unfolding_all decide)).1⟩

/-- C4 counterexample: for the score with a long note (start 0, duration
10) followed by a short note (start 1, duration 1), at elapsedTime 10 the
short note's interval ends before the window start 5, yet after the
update it is visible; the universal hide-when-not-overlapping part of the
claim is false. -/
theorem culling_nonoverlap_still_visible :
    ((visUpdate 10 [] exVis4).notesByTime.map
        (fun i => (decide (i.note.time + i.note.duration < 10 - LOOKBEHIND), i.visible)))
      = [(false, true), (true, true)] := by
  with_unfolding_all rfl

/-! ## General list lemmas for the synchronizer proof (C1) -/

theorem takeWhile_split {α : Type} (p q : α → Bool) (l : List α)
    (himp : ∀ x, p x = true → q x = true) :
    l.takeWhile q = l.takeWhile p ++ (l.dropWhile p).takeWhile q := by
  induction l with
  | nil => rfl
  | cons a xs ih =>
    by_cases hpa : p a = true
    · rw [List.takeWhile_cons_of_pos hpa, List.dropWhile_cons_of_pos hpa,
        List.takeWhile_cons_of_pos (himp a hpa), List.cons_append, ih]
    · rw [List.takeWhile_cons_of_neg (p := p) (by simpa using hpa),
        List.dropWhile_cons_of_neg (p := p) (by simpa using hpa), List.nil_append]

theorem dropWhile_all_false {α : Type} (p : α → Bool) (R : α → α → Prop) (l : List α)
    (hsort : List.Pairwise R l)
    (hdc : ∀ x y, R x y → p y = true → p x = true) :
    ∀ x ∈ l.dropWhile p, p x = false := by
  induction l with
  | nil => intro x hx; cases hx
  | cons a xs ih =>
    by_cases hpa : p a = true
    · rw [List.dropWhile_cons_of_pos hpa]
      exact ih (List.pairwise_cons.mp hsort).2
    · rw [List.dropWhile_cons_of_neg (by simpa using hpa)]
      intro x hx
      rcases List.mem_cons.mp hx with he | hx₂
      · rw [he]
        simpa using hpa
      · cases hpx : p x with
        | false => rfl
        | true =>
          exact absurd (hdc a x ((List.pairwise_cons.mp hsort).1 x hx₂) hpx) hpa

theorem drop_takeWhile_length {α : Type} (p : α → Bool) (l : List α) :
    l.drop (l.takeWhile p).length = l.dropWhile p := by
  have h := List.takeWhile_append_dropWhile (p := p) (l := l)
  calc l.drop (l.takeWhile p).length
      = (l.takeWhile p ++ l.dropWhile p).drop (l.takeWhile p).length := by rw [h]
    _ = l.dropWhile p := List.drop_left _ _

/-! ## Sweep characterizations (C1) -/

theorem notesOnAux_fst (e : ℚ) (rest : List PlayableNote) :
    ∀ (i : Nat) (act : List (NoteKey × Note)) (sy : SynthState) (kb : Keyboard),
    (notesOnAux e rest i act sy kb).1
      = i + (rest.takeWhile (fun p => decide (p.note.time ≤ e))).length := by
  induction rest with
  | nil => intro i act sy kb; simp [notesOnAux]
  | cons p ps ih =>
    intro i act sy kb
    by_cases hp : p.note.time ≤ e
    · have ht : (p :: ps).takeWhile (fun q => decide (q.note.time ≤ e))
          = p :: ps.takeWhile (fun q => decide (q.note.time ≤ e)) := by
        simp [List.takeWhile_cons, hp]
      rw [notesOnAux, if_pos hp, ih, ht, List.length_cons]
      omega
    · have ht : (p :: ps).takeWhile (fun q => decide (q.note.time ≤ e)) = [] := by
        simp [List.takeWhile_cons, hp]
      rw [notesOnAux, if_neg hp, ht]
      simp

theorem notesOnAux_act (e : ℚ) (rest : List PlayableNote) :
    ∀ (i : Nat) (act : List (NoteKey × Note)) (sy : SynthState) (kb : Keyboard),
    (notesOnAux e rest i act sy kb).2.1
      = (rest.takeWhile (fun p => decide (p.note.time ≤ e))).foldl
          (fun a p => mapSet a (pnKey p) p.note) act := by
  induction rest with
  | nil => intro i act sy kb; simp [notesOnAux]
  | cons p ps ih =>
    intro i act sy kb
    by_cases hp : p.note.time ≤ e
    · have ht : (p :: ps).takeWhile (fun q => decide (q.note.time ≤ e))
          = p :: ps.takeWhile (fun q => decide (q.note.time ≤ e)) := by
        simp [List.takeWhile_cons, hp]
      rw [notesOnAux, if_pos hp, ih, ht, List.foldl_cons]
    · have ht : (p :: ps).takeWhile (fun q => decide (q.note.time ≤ e)) = [] := by
        simp [List.takeWhile_cons, hp]
      rw [notesOnAux, if_neg hp, ht]
      simp

theorem foldl_mapSet_append (ps : List PlayableNote) :
    ∀ (act : List (NoteKey × Note)),
    (∀ p ∈ ps, pnKey p ∉ mapKeys act) → (ps.map pnKey).Nodup →
    ps.foldl (fun a p => mapSet a (pnKey p) p.note) act
      = act ++ ps.map (fun p => (pnKey p, p.note)) := by
  induction ps with
  | nil => intro act _ _; simp
  | cons p rest ih =>
    intro act hdis hnd
    rw [List.foldl_cons, mapSet_of_not_mem act (pnKey p) p.note
      (hdis p (List.mem_cons_self _ _))]
    rw [List.map_cons, List.nodup_cons] at hnd
    rw [ih (act ++ [(pnKey p, p.note)]) ?_ hnd.2]
    · simp
    · intro q hq
      rw [mapKeys, List.map_append, List.mem_append]
      rintro (hq₁ | hq₂)
      · exact hdis q (List.mem_cons_of_mem _ hq) (by simpa [mapKeys] using hq₁)
      · simp only [List.map_cons, List.map_nil, List.mem_singleton] at hq₂
        exact hnd.1 (hq₂ ▸ List.mem_map_of_mem pnKey hq)

theorem notesOff_act (e : ℚ) (md : Bool) :
    ∀ (act : List (NoteKey × Note)) (sy : SynthState) (kb : Keyboard),
    (notesOff e md act sy kb).1
      = act.filter (fun kv => decide (e < kv.2.time + kv.2.duration)) := by
  intro act
  induction act with
  | nil => intro sy kb; simp [notesOff]
  | cons kv rest ih =>
    intro sy kb
    obtain ⟨k, n⟩ := kv
    by_cases hle : n.time + n.duration ≤ e
    · have hF : ((k, n) :: rest).filter (fun kv => decide (e < kv.2.time + kv.2.duration))
          = rest.filter (fun kv => decide (e < kv.2.time + kv.2.duration)) := by
        rw [List.filter_cons]
        simp [not_lt.mpr hle]
      rw [notesOff, if_pos hle, ih, hF]
    · have hF : ((k, n) :: rest).filter (fun kv => decide (e < kv.2.time + kv.2.duration))
          = (k, n) :: rest.filter (fun kv => decide (e < kv.2.time + kv.2.duration)) := by
        rw [List.filter_cons]
        simp [not_le.mp hle]
      rw [notesOff, if_neg hle, hF]
      simp only []
      rw [ih]

theorem rescanActive_act (e : ℚ) (l : List PlayableNote) :
    ∀ (act : List (NoteKey × Note)) (kb : Keyboard),
    (∀ p ∈ l, pnKey p ∉ mapKeys act) → (l.map pnKey).Nodup →
    (rescanActive e l act kb).1 = act ++ activeAt l e := by
  induction l with
  | nil => intro act kb _ _; simp [rescanActive, activeAt]
  | cons p rest ih =>
    intro act kb hdis hnd
    rw [List.map_cons, List.nodup_cons] at hnd
    by_cases hcond : p.note.time ≤ e ∧ e < p.note.time + p.note.duration
    · rw [rescanActive, if_pos hcond]
      have hset : mapSet act (pnKey p) p.note = act ++ [(pnKey p, p.note)] :=
        mapSet_of_not_mem act (pnKey p) p.note (hdis p (List.mem_cons_self _ _))
      rw [hset]
      have hdis₂ : ∀ q ∈ rest, pnKey q ∉ mapKeys (act ++ [(pnKey p, p.note)]) := by
        intro q hq
        rw [mapKeys, List.map_append, List.mem_append]
        rintro (hq₁ | hq₂)
        · exact hdis q (List.mem_cons_of_mem _ hq) (by simpa [mapKeys] using hq₁)
        · simp only [List.map_cons, List.map_nil, List.mem_singleton] at hq₂
          exact hnd.1 (hq₂ ▸ List.mem_map_of_mem pnKey hq)
      rw [ih (act ++ [(pnKey p, p.note)])
        (kbPress p.note.midi (activePressColor p.channel) kb) hdis₂ hnd.2]
      have hAct : activeAt (p :: rest) e = (pnKey p, p.note) :: activeAt rest e := by
        rw [activeAt, activeAt, List.filter_cons]
        simp [hcond]
      rw [hAct, List.append_assoc]
      rfl
    · rw [rescanActive, if_neg hcond]
      rw [ih act kb (fun q hq => hdis q (List.mem_cons_of_mem _ hq)) hnd.2]
      have hAct : activeAt (p :: rest) e = activeAt rest e := by
        rw [activeAt, activeAt, List.filter_cons]
        simp [hcond]
      rw [hAct]

/-! ## Sorted-filter lemmas (C1) -/

theorem time_downward_closed (T : ℚ) :
    ∀ x y : PlayableNote, x.note.time ≤ y.note.time →
      decide (y.note.time ≤ T) = true → decide (x.note.time ≤ T) = true := by
  intro x y hxy hy
  simp only [decide_eq_true_iff] at hy ⊢
  linarith

theorem filter_active_dropWhile_nil (l : List PlayableNote) (t : ℚ)
    (hsort : List.Pairwise (fun a b => a.note.time ≤ b.note.time) l) :
    (l.dropWhile (fun p => decide (p.note.time ≤ t))).filter
      (fun p => decide (p.note.time ≤ t ∧ t < p.note.time + p.note.duration)) = [] := by
  rw [List.filter_eq_nil_iff]
  intro x hx
  have hfalse := dropWhile_all_false (fun p => decide (p.note.time ≤ t)) _ l hsort
    (time_downward_closed t) x hx
  simp only [decide_eq_true_iff] at hfalse ⊢
  rw [decide_eq_false_iff_not] at hfalse
  intro hc
  exact hfalse hc.1

theorem sorted_filter_take (notes : List PlayableNote) (T : ℚ)
    (hsort : List.Pairwise (fun a b => a.note.time ≤ b.note.time) notes) :
    notes.filter (fun p => decide (p.note.time ≤ T ∧ T < p.note.time + p.note.duration))
      = (notes.takeWhile (fun p => decide (p.note.time ≤ T))).filter
          (fun p => decide (p.note.time ≤ T ∧ T < p.note.time + p.note.duration)) := by
  have hsplit := List.takeWhile_append_dropWhile
    (p := fun p : PlayableNote => decide (p.note.time ≤ T)) (l := notes)
  calc notes.filter (fun p => decide (p.note.time ≤ T ∧ T < p.note.time + p.note.duration))
      = ((notes.takeWhile (fun p => decide (p.note.time ≤ T))
          ++ notes.dropWhile (fun p => decide (p.note.time ≤ T)))).filter
          (fun p => decide (p.note.time ≤ T ∧ T < p.note.time + p.note.duration)) := by
        rw [hsplit]
    _ = _ := by
        rw [List.filter_append, filter_active_dropWhile_nil notes T hsort, List.append_nil]

theorem active_filter_step (notes : List PlayableNote) (T Tp : ℚ)
    (hsort : List.Pairwise (fun a b => a.note.time ≤ b.note.time) notes)
    (hTT : T ≤ Tp) :
    (notes.filter
        (fun p => decide (p.note.time ≤ T ∧ T < p.note.time + p.note.duration))).filter
        (fun p => decide (Tp < p.note.time + p.note.duration)) ++
      ((notes.dropWhile (fun p => decide (p.note.time ≤ T))).takeWhile
        (fun p => decide (p.note.time ≤ Tp))).filter
        (fun p => decide (Tp < p.note.time + p.note.duration))
    = notes.filter (fun p => decide (p.note.time ≤ Tp ∧ Tp < p.note.time + p.note.duration)) := by
  have hsortD : List.Pairwise (fun a b : PlayableNote => a.note.time ≤ b.note.time)
      (notes.dropWhile (fun p => decide (p.note.time ≤ T))) :=
    List.Pairwise.sublist (List.dropWhile_sublist _) hsort
  -- left part
  have hleft : (notes.filter
        (fun p => decide (p.note.time ≤ T ∧ T < p.note.time + p.note.duration))).filter
        (fun p => decide (Tp < p.note.time + p.note.duration))
      = (notes.takeWhile (fun p => decide (p.note.time ≤ T))).filter
          (fun p => decide (p.note.time ≤ Tp ∧ Tp < p.note.time + p.note.duration)) := by
    rw [sorted_filter_take notes T hsort, List.filter_filter]
    apply List.filter_congr
    intro x hx
    have hxT : x.note.time ≤ T := by
      simpa [decide_eq_true_iff] using List.mem_takeWhile_imp hx
    rw [← Bool.decide_and, decide_eq_decide]
    constructor
    · rintro ⟨h₁, _, _⟩
      exact ⟨by linarith, h₁⟩
    · rintro ⟨_, h₂⟩
      exact ⟨h₂, hxT, by linarith⟩
  -- right part
  have hright : ((notes.dropWhile (fun p => decide (p.note.time ≤ T))).takeWhile
        (fun p => decide (p.note.time ≤ Tp))).filter
        (fun p => decide (Tp < p.note.time + p.note.duration))
      = (notes.dropWhile (fun p => decide (p.note.time ≤ T))).filter
          (fun p => decide (p.note.time ≤ Tp ∧ Tp < p.note.time + p.note.duration)) := by
    rw [sorted_filter_take _ Tp hsortD]
    apply List.filter_congr
    intro x hx
    have hxTp : x.note.time ≤ Tp := by
      simpa [decide_eq_true_iff] using List.mem_takeWhile_imp hx
    rw [decide_eq_decide]
    constructor
    · intro h₂
      exact ⟨hxTp, h₂⟩
    · rintro ⟨_, h₂⟩
      exact h₂
  rw [hleft, hright, ← List.filter_append,
    List.takeWhile_append_dropWhile]

/-- One playing frame preserves the synchronizer invariant: from a state
synchronized at T, the frame at audio time o + Tp (T ≤ Tp, before the end
of the score) leaves the active map equal to the notes sounding at Tp and
the cursor right past the notes with startTime ≤ Tp. -/
theorem updatePlayback_step (notes : List PlayableNote) (dur o T Tp : ℚ)
    (s : PlayerState)
    (hsort : List.Pairwise (fun a b => a.note.time ≤ b.note.time) notes)
    (hnd : (notes.map pnKey).Nodup)
    (hTT : T ≤ Tp) (hdur : Tp < dur)
    (hinv : SyncInv notes dur o T s) :
    SyncInv notes dur o Tp (updatePlayback (o + Tp) s) ∧
      (updatePlayback (o + Tp) s).elapsedTime = Tp := by
  obtain ⟨hplay, horig, hd, hnotes, hact, hcur⟩ := hinv
  have he : o + Tp - s.audioContextStartTime = Tp := by rw [horig]; ring
  have hend : ¬ s.duration ≤ o + Tp - s.audioContextStartTime := by
    rw [he, hd]
    exact not_le.mpr hdur
  have hdrop : s.notesToPlay.drop s.nextNoteIndex
      = notes.dropWhile (fun p => decide (p.note.time ≤ T)) := by
    rw [hnotes, hcur, drop_takeWhile_length]
  have himp : ∀ x : PlayableNote,
      decide (x.note.time ≤ T) = true → decide (x.note.time ≤ Tp) = true := by
    intro x hx
    simp only [decide_eq_true_iff] at hx ⊢
    linarith
  have hsplitK : notes.map pnKey
      = (notes.takeWhile (fun p => decide (p.note.time ≤ T))).map pnKey
        ++ (notes.dropWhile (fun p => decide (p.note.time ≤ T))).map pnKey := by
    conv_lhs => rw [← List.takeWhile_append_dropWhile
      (p := fun p : PlayableNote => decide (p.note.time ≤ T)) (l := notes)]
    rw [List.map_append]
  have hnd₂ := hnd
  rw [hsplitK, List.nodup_append] at hnd₂
  obtain ⟨hndT, hndD, hdisj⟩ := hnd₂
  have hseg_sub : ((notes.dropWhile (fun p => decide (p.note.time ≤ T))).takeWhile
      (fun p => decide (p.note.time ≤ Tp))).Sublist
      (notes.dropWhile (fun p => decide (p.note.time ≤ T))) :=
    List.takeWhile_sublist _
  have hseg_nodup : (((notes.dropWhile (fun p => decide (p.note.time ≤ T))).takeWhile
      (fun p => decide (p.note.time ≤ Tp))).map pnKey).Nodup :=
    List.Nodup.sublist (List.Sublist.map pnKey hseg_sub) hndD
  have hact_keys : mapKeys (activeAt notes T)
      = (notes.filter
          (fun p => decide (p.note.time ≤ T ∧ T < p.note.time + p.note.duration))).map
          pnKey := by
    rw [activeAt, mapKeys, List.map_map]
    rfl
  have hdisj_seg : ∀ p ∈ (notes.dropWhile (fun p => decide (p.note.time ≤ T))).takeWhile
      (fun p => decide (p.note.time ≤ Tp)), pnKey p ∉ mapKeys (activeAt notes T) := by
    intro p hp hmem
    rw [hact_keys, sorted_filter_take notes T hsort] at hmem
    have hmem₂ : pnKey p ∈ (notes.takeWhile (fun p => decide (p.note.time ≤ T))).map pnKey :=
      (List.Sublist.map pnKey (List.filter_sublist _)).subset hmem
    have hmem₃ : pnKey p ∈ (notes.dropWhile (fun p => decide (p.note.time ≤ T))).map pnKey :=
      List.mem_map_of_mem pnKey (hseg_sub.subset hp)
    exact hdisj hmem₂ hmem₃
  simp only [updatePlayback, hplay, not_true, if_false, Bool.not_eq_true,
    Bool.true_eq_false, ite_false]
  rw [if_neg hend, he]
  refine ⟨⟨rfl, horig, hd, hnotes, ?_, ?_⟩, rfl⟩
  · show (notesOff Tp s.matchDuration
        (notesOn Tp s.notesToPlay s.nextNoteIndex s.activeNotes s.synth s.keyboard).2.1
        (notesOn Tp s.notesToPlay s.nextNoteIndex s.activeNotes s.synth s.keyboard).2.2.1
        (notesOn Tp s.notesToPlay s.nextNoteIndex s.activeNotes s.synth s.keyboard).2.2.2).1
      = activeAt notes Tp
    rw [notesOff_act, notesOn, hdrop, notesOnAux_act, hact]
    rw [foldl_mapSet_append _ (activeAt notes T) hdisj_seg hseg_nodup]
    rw [List.filter_append, activeAt, List.filter_map, List.filter_map]
    have hcomp : ∀ (l : List PlayableNote),
        l.filter ((fun kv : NoteKey × Note => decide (Tp < kv.2.time + kv.2.duration))
          ∘ (fun p => (pnKey p, p.note)))
        = l.filter (fun p => decide (Tp < p.note.time + p.note.duration)) := by
      intro l
      apply List.filter_congr
      intro x _
      rfl
    rw [hcomp, hcomp, ← List.map_append, active_filter_step notes T Tp hsort hTT, activeAt]
  · show (notesOn Tp s.notesToPlay s.nextNoteIndex s.activeNotes s.synth s.keyboard).1
      = (notes.takeWhile (fun p => decide (p.note.time ≤ Tp))).length
    rw [notesOn, hdrop, notesOnAux_fst, hcur]
    rw [takeWhile_split (fun p : PlayableNote => decide (p.note.time ≤ T))
      (fun p => decide (p.note.time ≤ Tp)) notes himp]
    rw [List.length_append]

/-- Folding playing frames at nondecreasing times keeps the synchronizer
invariant, landing at the last frame time. -/
theorem frames_fold (notes : List PlayableNote) (dur o : ℚ)
    (hsort : List.Pairwise (fun a b => a.note.time ≤ b.note.time) notes)
    (hnd : (notes.map pnKey).Nodup) :
    ∀ (ts : List ℚ) (T₀ : ℚ) (s : PlayerState),
    SyncInv notes dur o T₀ s →
    List.Chain (· ≤ ·) T₀ ts → (∀ t ∈ ts, t < dur) →
    SyncInv notes dur o (ts.getLastD T₀)
      (ts.foldl (fun st t => updatePlayback (o + t) st) s) := by
  intro ts
  induction ts with
  | nil =>
    intro T₀ s hinv _ _
    exact hinv
  | cons t rest ih =>
    intro T₀ s hinv hchain hbound
    rw [List.chain_cons] at hchain
    rw [List.foldl_cons, List.getLastD_cons]
    exact ih t (updatePlayback (o + t) s)
      (updatePlayback_step notes dur o T₀ t s hsort hnd hchain.1
        (hbound t (List.mem_cons_self _ _)) hinv).1
      hchain.2 (fun x hx => hbound x (List.mem_cons_of_mem _ hx))

/-- The freshly loaded, just-started player satisfies the invariant at a
virtual time before every note. -/
theorem startState_syncInv (notes : List PlayableNote) (dur o : ℚ) (md : Bool)
    (sy : SynthState) (kb : Keyboard) (vis : VisState)
    (hnn : ∀ p ∈ notes, 0 ≤ p.note.time) :
    SyncInv notes dur o (-1) (startState notes dur md o sy kb vis) := by
  refine ⟨rfl, rfl, rfl, rfl, ?_, ?_⟩
  · show ([] : List (NoteKey × Note)) = activeAt notes (-1)
    rw [activeAt]
    have hnil : notes.filter
        (fun p => decide (p.note.time ≤ (-1 : ℚ)
          ∧ (-1 : ℚ) < p.note.time + p.note.duration)) = [] := by
      rw [List.filter_eq_nil_iff]
      intro p hp
      have h0 := hnn p hp
      simp only [decide_eq_true_iff, not_and]
      intro h₁
      linarith
    rw [hnil]
    rfl
  · show 0 = (notes.takeWhile (fun p => decide (p.note.time ≤ (-1 : ℚ)))).length
    cases notes with
    | nil => rfl
    | cons p ps =>
      have h0 := hnn p (List.mem_cons_self _ _)
      rw [List.takeWhile_cons_of_neg]
      · rfl
      · simp only [decide_eq_true_iff]
        intro hc
        linarith

/-- The re-synchronization of handleSeek rebuilds the active map as
exactly the notes sounding at the target. -/
theorem seekToTarget_active (now T : ℚ) (s : PlayerState)
    (hnd : (s.notesToPlay.map pnKey).Nodup) :
    (seekToTarget now T s).activeNotes = activeAt s.notesToPlay T := by
  show (rescanActive T s.notesToPlay [] (kbReleaseAll s.keyboard)).1
    = activeAt s.notesToPlay T
  rw [rescanActive_act T s.notesToPlay [] (kbReleaseAll s.keyboard)
    (fun p _ => by simp [mapKeys]) hnd]
  rw [List.nil_append]

/-- C1: for a chronologically sorted score with distinct note keys, the
active-note map after stepping forward frame by frame at nondecreasing
times ending at T equals the set of notes with
startTime ≤ T < startTime + duration, and a direct seek to T rebuilds the
identical map by its full rescan; both paths agree. -/
theorem active_set_step_seek_agree (notes : List PlayableNote) (dur o now T : ℚ)
    (md : Bool) (sy : SynthState) (kb : Keyboard) (vis : VisState)
    (ts : List ℚ) (s : PlayerState)
    (hsort : List.Pairwise (fun a b => a.note.time ≤ b.note.time) notes)
    (hnd : (notes.map pnKey).Nodup)
    (hnn : ∀ p ∈ notes, 0 ≤ p.note.time)
    (hmono : List.Pairwise (· ≤ ·) (0 :: (ts ++ [T])))
    (hbound : ∀ t ∈ ts ++ [T], t < dur)
    (hnotes : s.notesToPlay = notes) :
    ((ts ++ [T]).foldl (fun st t => updatePlayback (o + t) st)
        (startState notes dur md o sy kb vis)).activeNotes = activeAt notes T ∧
    (seekToTarget now T s).activeNotes = activeAt notes T := by
  constructor
  · have hchain : List.Chain (· ≤ ·) (0 : ℚ) (ts ++ [T]) :=
      List.chain_iff_pairwise.mpr hmono
    have hchain₂ : List.Chain (· ≤ ·) (-1 : ℚ) (ts ++ [T]) := by
      rcases hts : ts ++ [T] with _ | ⟨x, l₂⟩
      · simp at hts
      · rw [hts] at hchain
        rw [List.chain_cons] at hchain ⊢
        exact ⟨by linarith [hchain.1], hchain.2⟩
    have hlast : (ts ++ [T]).getLastD (-1) = T := List.getLastD_concat _ _ _
    have hfold := frames_fold notes dur o hsort hnd (ts ++ [T]) (-1)
      (startState notes dur md o sy kb vis)
      (startState_syncInv notes dur o md sy kb vis hnn) hchain₂ hbound
    rw [hlast] at hfold
    exact hfold.2.2.2.2.1
  · rw [seekToTarget_active now T s (by rw [hnotes]; exact hnd), hnotes]

/-- Witness for the C1 theorem at the spec-8 example score: stepping
through frames 0, 0.5, 0.75 and seeking straight to 0.75 both yield the
active map holding the notes at pitches 60 and 62. -/
theorem active_set_step_seek_agree_witness :
    (([0, 1/2] ++ [3/4] : List ℚ).foldl (fun st t => updatePlayback (100 + t) st)
        (startState exNotes3 10 false 100 exSynth exKb exVisEmpty)).activeNotes
      = activeAt exNotes3 (3/4) ∧
    (seekToTarget 100 (3/4) exStart3).activeNotes = activeAt exNotes3 (3/4) :=
  active_set_step_seek_agree exNotes3 10 100 100 (3/4) false exSynth exKb
    exVisEmpty [0, 1/2] exStart3 (by with_unfolding_all decide)
    (by with_unfolding_all decide) (by with_unfolding_all decide)
    (by with_unfolding_all decide) (by with_unfolding_all decide)
    (by with_unfolding_all rfl)

end MidiBar
